import Mathlib

/-!
Verification of the understory spatial core: a shallow embedding of the
understory_index, understory_box_tree and understory_responder crates,
with theorems settling the frozen specification claims.

Conventions of the embedding:
* Rust `Vec<T>` is modelled as `List T` addressed by position; `Vec::push`
  appends at the end.  The free lists are used as stacks (`push`/`pop` at the
  vector end); we model a stack with its top at the head of the list, which
  matches the push/pop discipline exactly.
* `u32`/`usize` counters are modelled as `Nat` (the code never exercises
  wrap-around in the claims under study), `i64` coordinates as `Int`, and
  `f64` coordinates as `Rat`: the floating-point inputs are assumed finite
  and NaN-free by the crate documentation, and every claim under study is
  about control flow (comparisons, branch structure), not rounding.
* Fallible operations (Rust panics such as `expect("dangling NodeId")` and
  `path.last().unwrap()`) are modelled with `Option`, `none` standing for a
  panic.
-/

namespace Understory

/-- Axis-aligned bounding box, mirroring `Aabb2D<T>` of
`understory_index/src/types.rs`. -/
structure Aabb (α : Type) where
  min_x : α
  min_y : α
  max_x : α
  max_y : α
deriving Repr, DecidableEq

namespace Aabb

variable {α : Type} [LinearOrder α]

/-- Mirrors `le` of `types.rs`: `partial_cmp` never returns `None` on the
scalar models used here (no NaN), so it is the order's `≤`. -/
def le (a b : α) : Bool := decide (a ≤ b)

/-- Mirrors `lt` of `types.rs`. -/
def lt (a b : α) : Bool := decide (a < b)

/-- Mirrors `min_t` of `types.rs`: `b` when `a > b`, else `a`. -/
def min_t (a b : α) : α := if a > b then b else a

/-- Mirrors `max_t` of `types.rs`: `b` when `a < b`, else `a`. -/
def max_t (a b : α) : α := if a < b then b else a

/-- Mirrors `Aabb2D::contains_point`. -/
def contains_point (a : Aabb α) (x y : α) : Bool :=
  le a.min_x x && le a.min_y y && le x a.max_x && le y a.max_y

/-- Mirrors `Aabb2D::intersect` (clamped component-wise). -/
def intersect (a b : Aabb α) : Aabb α :=
  { min_x := max_t a.min_x b.min_x
    min_y := max_t a.min_y b.min_y
    max_x := min_t a.max_x b.max_x
    max_y := min_t a.max_y b.max_y }

/-- Mirrors `Aabb2D::is_empty`: empty iff inverted on some axis. -/
def is_empty (a : Aabb α) : Bool :=
  lt a.max_x a.min_x || lt a.max_y a.min_y

/-- Mirrors `union_aabb` of `types.rs`. -/
def union_aabb (a b : Aabb α) : Aabb α :=
  { min_x := min_t a.min_x b.min_x
    min_y := min_t a.min_y b.min_y
    max_x := max_t a.max_x b.max_x
    max_y := max_t a.max_y b.max_y }

end Aabb

/-! ### The generic index (`understory_index/src/index.rs`) -/

/-- Generational handle for index entries, mirroring `Key(u32, u32)`:
field `0` is the slot, field `1` the generation. -/
structure Key where
  slot : Nat
  generation : Nat
deriving Repr, DecidableEq

/-- Mirrors the `Mark` enum of `index.rs`. -/
inductive Mark where
  | Added
  | Updated
  | Removed
deriving Repr, DecidableEq

/-- Mirrors `Entry<T, P>` of `index.rs`. -/
structure Entry (α P : Type) where
  generation : Nat
  aabb : Aabb α
  payload : P
  mark : Option Mark
  prev_aabb : Option (Aabb α)
deriving Repr, DecidableEq

/-- The `Backend` trait of `understory_index/src/backend.rs`, modelled as a
record of operations on a backend state type `σ`. Queries return slot lists
(the Rust iterators, materialised). -/
structure BackendOps (α σ : Type) where
  insert : σ → Nat → Aabb α → σ
  update : σ → Nat → Aabb α → σ
  remove : σ → Nat → σ
  clear : σ → σ
  query_point : σ → α → α → List Nat
  query_rect : σ → Aabb α → List Nat

/-- Mirrors `IndexGeneric<T, P, B>`: entry slots, free list and backend. -/
structure IndexState (α P σ : Type) where
  entries : List (Option (Entry α P))
  free_list : List Nat
  backend : σ
deriving Repr, DecidableEq

/-- Batched damage summary, mirroring `Damage<T>` of `damage.rs`. -/
structure Damage (α : Type) where
  added : List (Aabb α)
  removed : List (Aabb α)
  moved : List (Aabb α × Aabb α)
deriving Repr, DecidableEq

namespace Damage

/-- Mirrors `Damage::default`. -/
def empty {α : Type} : Damage α := ⟨[], [], []⟩

/-- Mirrors `Damage::is_empty`. -/
def is_empty {α : Type} (d : Damage α) : Bool :=
  d.added.isEmpty && d.removed.isEmpty && d.moved.isEmpty

/-- Mirrors `Damage::union`: fold of `union_aabb` over added, removed, and
both halves of each moved pair, `none` when there is nothing. -/
def union {α : Type} [LinearOrder α] (d : Damage α) : Option (Aabb α) :=
  match d.added ++ d.removed ++ (d.moved.flatMap fun p => [p.1, p.2]) with
  | [] => none
  | first :: rest => some (rest.foldl Aabb.union_aabb first)

end Damage

namespace Index

variable {α P σ : Type}

/-- Mirrors the read path of `IndexGeneric::entry_mut`: the entry at the
key's slot, provided the slot is occupied and the generation matches. -/
def entry_at (s : IndexState α P σ) (k : Key) : Option (Entry α P) :=
  match s.entries.get? k.slot with
  | some (some e) => if e.generation = k.generation then some e else none
  | _ => none

/-- A key is live when its slot holds an entry of matching generation. -/
def isLive (s : IndexState α P σ) (k : Key) : Prop := entry_at s k ≠ none

instance [DecidableEq α] [DecidableEq P] (s : IndexState α P σ) (k : Key) :
    Decidable (isLive s k) := by
  unfold isLive; infer_instance

/-- Mirrors `IndexGeneric::insert`: pop a free slot (generation of the entry
found there plus one, zero when the slot is vacant) or append a fresh slot at
generation one.  The backend is not touched. -/
def insert (s : IndexState α P σ) (aabb : Aabb α) (payload : P) :
    Key × IndexState α P σ :=
  match s.free_list with
  | idx :: rest =>
      let generation := (match s.entries.get? idx with
        | some (some e) => e.generation
        | _ => 0) + 1
      (⟨idx, generation⟩,
        { s with
          entries := s.entries.set idx
            (some ⟨generation, aabb, payload, some Mark.Added, none⟩)
          free_list := rest })
  | [] =>
      let generation := 1
      (⟨s.entries.length, generation⟩,
        { s with
          entries := s.entries ++
            [some ⟨generation, aabb, payload, some Mark.Added, none⟩] })

/-- Mirrors `IndexGeneric::update`: stale keys are no-ops; otherwise record
`prev_aabb` on the first post-commit mutation, set the AABB, and mark
`Updated` unless the entry was still `Added`. -/
def update (s : IndexState α P σ) (k : Key) (aabb : Aabb α) :
    IndexState α P σ :=
  match entry_at s k with
  | none => s
  | some e =>
      let e1 : Entry α P :=
        { e with
          prev_aabb := if e.mark = none then some e.aabb else e.prev_aabb
          aabb := aabb
          mark := some (match e.mark with
            | some Mark.Added => Mark.Added
            | _ => Mark.Updated) }
      { s with entries := s.entries.set k.slot (some e1) }

/-- Mirrors `IndexGeneric::remove`: stale keys are no-ops; a still-`Added`
entry is discarded and its slot recycled immediately; otherwise the entry is
marked `Removed`. -/
def remove (s : IndexState α P σ) (k : Key) : IndexState α P σ :=
  match entry_at s k with
  | none => s
  | some e =>
      if e.mark = some Mark.Added then
        { s with
          entries := s.entries.set k.slot none
          free_list := k.slot :: s.free_list }
      else
        { s with
          entries := s.entries.set k.slot
            (some { e with mark := some Mark.Removed }) }

/-- One step of `IndexGeneric::commit` for slot `i` (the body of the
`for i in 0..self.entries.len()` loop), threading state and damage. -/
def commitStep [DecidableEq α] (B : BackendOps α σ)
    (acc : IndexState α P σ × Damage α)
    (i : Nat) : IndexState α P σ × Damage α :=
  let s := acc.1
  let dmg := acc.2
  match s.entries.get? i with
  | none => (s, dmg)
  | some none => (s, dmg)
  | some (some e) =>
    match e.mark with
    | some Mark.Added =>
        ({ s with
            entries := s.entries.set i (some { e with mark := none })
            backend := B.insert s.backend i e.aabb },
          { dmg with added := dmg.added ++ [e.aabb] })
    | some Mark.Removed =>
        ({ s with
            entries := s.entries.set i none
            free_list := i :: s.free_list
            backend := B.remove s.backend i },
          { dmg with removed := dmg.removed ++ [e.aabb] })
    | some Mark.Updated =>
        ({ s with
            entries := s.entries.set i
              (some { e with mark := none, prev_aabb := none })
            backend := B.update s.backend i e.aabb },
          match e.prev_aabb with
          | some prev =>
              if prev ≠ e.aabb then
                { dmg with moved := dmg.moved ++ [(prev, e.aabb)] }
              else dmg
          | none => dmg)
    | none =>
        ((s.entries.set i (some { e with mark := none })) |>
          fun es => ({ s with entries := es }, dmg))

/-- Mirrors `IndexGeneric::commit`: visit slots in slot order, apply pending
marks to the backend, and report batched damage. -/
def commit [DecidableEq α] (B : BackendOps α σ) (s : IndexState α P σ) :
    IndexState α P σ × Damage α :=
  (List.range s.entries.length).foldl (commitStep B) (s, Damage.empty)

/-- Mirrors `IndexGeneric::query_point`: backend candidates, refined to the
slots that currently hold an entry, paired with key and payload. -/
def query_point (B : BackendOps α σ) (s : IndexState α P σ) (x y : α) :
    List (Key × P) :=
  (B.query_point s.backend x y).filterMap fun i =>
    match s.entries.get? i with
    | some (some e) => some (⟨i, e.generation⟩, e.payload)
    | _ => none

/-- Mirrors `IndexGeneric::query_rect`. -/
def query_rect (B : BackendOps α σ) (s : IndexState α P σ) (rect : Aabb α) :
    List (Key × P) :=
  (B.query_rect s.backend rect).filterMap fun i =>
    match s.entries.get? i with
    | some (some e) => some (⟨i, e.generation⟩, e.payload)
    | _ => none

/-- The empty index (`IndexGeneric::new`) over a given backend start state. -/
def emptyState (b : σ) : IndexState α P σ := ⟨[], [], b⟩

end Index

/-! ### The flat backend (`understory_index/src/backends/flatvec.rs`) -/

/-- State of the `FlatVec` backend: a dense vector of optional AABBs. -/
abbrev FlatState (α : Type) : Type := List (Option (Aabb α))

namespace FlatVec

variable {α : Type} [LinearOrder α]

/-- Grow the slot vector to hold index `slot` (`resize_with`). -/
def ensure (l : List (Option (Aabb α))) (slot : Nat) :
    List (Option (Aabb α)) :=
  if l.length ≤ slot then l ++ List.replicate (slot + 1 - l.length) none else l

/-- Mirrors `FlatVec::insert`: resize to cover the slot, then store. -/
def insert (s : FlatState α) (slot : Nat) (aabb : Aabb α) : FlatState α :=
  (ensure s slot).set slot (some aabb)

/-- Mirrors `FlatVec::update`: store only when the slot exists (list `set`
out of range is the identity, as is `get_mut` returning `None`). -/
def update (s : FlatState α) (slot : Nat) (aabb : Aabb α) : FlatState α :=
  s.set slot (some aabb)

/-- Mirrors `FlatVec::remove`. -/
def remove (s : FlatState α) (slot : Nat) : FlatState α :=
  s.set slot none

/-- Mirrors `FlatVec::query_point`: linear scan for containing slots. -/
def query_point (s : FlatState α) (x y : α) : List Nat :=
  ((s : List (Option (Aabb α))).enum.filterMap fun p =>
    match p.2 with
    | some a => if a.contains_point x y then some p.1 else none
    | none => none)

/-- Mirrors `FlatVec::query_rect`: linear scan for intersecting slots. -/
def query_rect (s : FlatState α) (rect : Aabb α) : List Nat :=
  ((s : List (Option (Aabb α))).enum.filterMap fun p =>
    match p.2 with
    | some a => if (a.intersect rect).is_empty then none else some p.1
    | none => none)

/-- The flat backend packaged as a `BackendOps`. -/
def ops : BackendOps α (FlatState α) :=
  { insert := insert
    update := update
    remove := remove
    clear := fun _ => []
    query_point := query_point
    query_rect := query_rect }

/-- The empty flat backend state (`FlatVec::default`). -/
def emptyState : FlatState α := []

end FlatVec

/-! ### The uniform grid backend
(`understory_index/src/backends/grid.rs`, the `GridI64` instantiation —
the same cell logic as `GridF64` with exact Euclidean cell division) -/

/-- One cell of the grid: its integer cell key and the slot list. -/
structure GridCell where
  cx : Int
  cy : Int
  slots : List Nat
deriving Repr, DecidableEq

/-- Mirrors `GridI64`: cell sizes, origin, the per-slot AABB vector and the
cell list. -/
structure GridState where
  cell_w : Int
  cell_h : Int
  origin_x : Int
  origin_y : Int
  entries : List (Option (Aabb Int))
  cells : List GridCell
deriving Repr, DecidableEq

namespace GridI64

/-- Mirrors `GridI64::new`. -/
def new (cell_w cell_h origin_x origin_y : Int) : GridState :=
  ⟨cell_w, cell_h, origin_x, origin_y, [], []⟩

/-- Mirrors `GridI64::key_for` (`div_euclid` is `Int.ediv`). -/
def key_for (g : GridState) (x y : Int) : Int × Int :=
  ((x - g.origin_x).ediv g.cell_w, (y - g.origin_y).ediv g.cell_h)

/-- The inclusive integer range `lo..=hi` of the Rust cell loops. -/
def rangeIncl (lo hi : Int) : List Int :=
  (List.range (hi + 1 - lo).toNat).map fun (i : Nat) => lo + (i : Int)

/-- Mirrors `GridI64::cells_for_aabb` (row-major key enumeration). -/
def cells_for_aabb (g : GridState) (a : Aabb Int) : List (Int × Int) :=
  let kmin := key_for g a.min_x a.min_y
  let kmax := key_for g a.max_x a.max_y
  (rangeIncl kmin.2 kmax.2).flatMap fun y =>
    (rangeIncl kmin.1 kmax.1).map fun x => (x, y)

/-- `find_cell_mut` followed by the push: extend the first cell carrying the
key, or append a fresh cell holding the slot. -/
def addSlot : List GridCell → Int × Int → Nat → List GridCell
  | [], key, slot => [⟨key.1, key.2, [slot]⟩]
  | c :: cs, key, slot =>
      if c.cx = key.1 ∧ c.cy = key.2 then
        { c with slots := c.slots ++ [slot] } :: cs
      else c :: addSlot cs key slot

/-- Mirrors `Vec::swap_remove`: replace the position with the last element
and pop. -/
def swapRemove (l : List Nat) (pos : Nat) : List Nat :=
  match l.getLast? with
  | none => l
  | some last => (l.set pos last).dropLast

/-- Mirrors `GridI64::remove_from_cells`: drop the first occurrence of the
slot from every cell. -/
def removeFromCells (cells : List GridCell) (slot : Nat) : List GridCell :=
  cells.map fun c =>
    match c.slots.findIdx? (fun s => s = slot) with
    | some pos => { c with slots := swapRemove c.slots pos }
    | none => c

/-- Mirrors `GridI64::insert` (`resize_with` is `FlatVec.ensure`'s logic). -/
def insert (g : GridState) (slot : Nat) (aabb : Aabb Int) : GridState :=
  { g with
    entries := (FlatVec.ensure g.entries slot).set slot (some aabb)
    cells := (cells_for_aabb g aabb).foldl
      (fun cs key => addSlot cs key slot) g.cells }

/-- Mirrors `GridI64::update`: always clear the slot from the cells, then
re-add only when the slot exists in the entry vector. -/
def update (g : GridState) (slot : Nat) (aabb : Aabb Int) : GridState :=
  let cells := removeFromCells g.cells slot
  if slot < g.entries.length then
    { g with
      entries := g.entries.set slot (some aabb)
      cells := (cells_for_aabb g aabb).foldl
        (fun cs key => addSlot cs key slot) cells }
  else { g with cells := cells }

/-- Mirrors `GridI64::remove`. -/
def remove (g : GridState) (slot : Nat) : GridState :=
  { g with
    entries := g.entries.set slot none
    cells := removeFromCells g.cells slot }

/-- Mirrors `GridI64::clear`. -/
def clear (g : GridState) : GridState :=
  { g with entries := [], cells := [] }

/-- One `BTreeSet::insert`: place the slot at its sorted position, keeping
the set free of duplicates. -/
def insertSorted (x : Nat) : List Nat → List Nat
  | [] => [x]
  | y :: ys =>
      if x < y then x :: y :: ys
      else if x = y then y :: ys
      else y :: insertSorted x ys

/-- The `BTreeSet` accumulation of the queries: insert every slot, then
iterate in ascending order. -/
def sortedDedup (l : List Nat) : List Nat :=
  l.foldl (fun acc s => insertSorted s acc) []

/-- Mirrors `GridI64::query_point`: the slot list of the first (only) cell
carrying the point's key — with no containment re-check. -/
def query_point (g : GridState) (x y : Int) : List Nat :=
  match g.cells.find? (fun c =>
    c.cx = (key_for g x y).1 ∧ c.cy = (key_for g x y).2) with
  | some c => sortedDedup c.slots
  | none => []

/-- Mirrors `GridI64::query_rect`: union of the slot lists of every covered
cell — with no intersection re-check. -/
def query_rect (g : GridState) (rect : Aabb Int) : List Nat :=
  sortedDedup ((cells_for_aabb g rect).flatMap fun key =>
    match g.cells.find? (fun c => c.cx = key.1 ∧ c.cy = key.2) with
    | some c => c.slots
    | none => [])

/-- The grid backend packaged as a `BackendOps`. -/
def ops : BackendOps Int GridState :=
  { insert := insert
    update := update
    remove := remove
    clear := clear
    query_point := query_point
    query_rect := query_rect }

end GridI64

/-- An operation of the index API, as quantified by the backend-equivalence
claim (payloads carry no information for slot-set comparisons). -/
inductive IdxOp where
  | insert (aabb : Aabb Int)
  | update (k : Key) (aabb : Aabb Int)
  | remove (k : Key)
  | commit
deriving Repr, DecidableEq

/-- Apply one operation to an index over backend `σ`. -/
def applyOp {σ : Type} (B : BackendOps Int σ)
    (s : IndexState Int Unit σ) : IdxOp → IndexState Int Unit σ
  | IdxOp.insert a => (Index.insert s a ()).2
  | IdxOp.update k a => Index.update s k a
  | IdxOp.remove k => Index.remove s k
  | IdxOp.commit => (Index.commit B s).1

/-- Run an operation sequence from the empty index over backend `σ`. -/
def runOps {σ : Type} (B : BackendOps Int σ) (b0 : σ)
    (ops : List IdxOp) : IndexState Int Unit σ :=
  ops.foldl (applyOp B) (Index.emptyState b0)

/-! ### Responder types (`understory_responder/src/types.rs`) -/

/-- Mirrors the `Phase` enum. -/
inductive Phase where
  | Capture
  | Target
  | Bubble
deriving Repr, DecidableEq

/-- Mirrors the `TieBreakPolicy` enum. -/
inductive TieBreakPolicy where
  | Newer
  | Older
  | MinId
  | MaxId
deriving Repr, DecidableEq

/-- Mirrors `DepthKey`. `Distance` carries `Rat` in place of `f32`; the
crate assumes finite, NaN-free distances. -/
inductive DepthKey where
  | Z (z : Int)
  | Distance (d : Rat)
deriving Repr, DecidableEq

namespace DepthKey

/-- Mirrors `Ord for DepthKey`: `Z` compares by value, `Distance` compares
reversed (smaller is nearer, hence greater), and any `Z` ranks above any
`Distance`.  The Rust NaN fallback `unwrap_or(Equal)` cannot fire on the
`Rat` model. -/
def cmp : DepthKey → DepthKey → Ordering
  | Z a, Z b => compare a b
  | Distance a, Distance b => compare b a
  | Z _, Distance _ => Ordering.gt
  | Distance _, Z _ => Ordering.lt

end DepthKey

/-- Mirrors the (currently field-free) `Localizer` placeholder. -/
structure Localizer where
deriving Repr, DecidableEq

/-- Mirrors `ResolvedHit<K, M>`. -/
structure ResolvedHit (K M : Type) where
  node : K
  path : Option (List K)
  depth_key : DepthKey
  localizer : Localizer
  meta : M
deriving Repr, DecidableEq

/-- Mirrors `Dispatch<K, W, M>`. -/
structure Dispatch (K W M : Type) where
  phase : Phase
  node : K
  widget : Option W
  localizer : Localizer
  meta : Option M
deriving Repr, DecidableEq

/-! ### The router (`understory_responder/src/router.rs`) -/

/-- Mirrors `Router<K, L, P>`.  The `WidgetLookup` and `ParentLookup`
collaborators are modelled as pure functions (`widget_of`, `parent_of`),
exactly their trait contracts. -/
structure Router (K W : Type) where
  lookup : K → Option W
  parent : K → Option K
  default_tie_break : TieBreakPolicy
  scope : Option (K → Bool)
  focus : Option K
  capture : Option K

namespace Router

variable {K W M : Type} [DecidableEq K]

/-- Mirrors the private `Router::id_is_newer` fallback: without generational
ids in `K` it is constantly false. -/
def id_is_newer (_a _b : K) : Bool := false

/-- Mirrors the private `Router::id_cmp` fallback: constantly `Equal`. -/
def id_cmp (_a _b : K) : Ordering := Ordering.eq

/-- Mirrors `Router::tiebreak`. -/
def tiebreak (r : Router K W) (a b : K) : Ordering :=
  match r.default_tie_break with
  | TieBreakPolicy.Newer =>
      if id_is_newer a b then Ordering.gt
      else if id_is_newer b a then Ordering.lt
      else Ordering.eq
  | TieBreakPolicy.Older =>
      if id_is_newer b a then Ordering.gt
      else if id_is_newer a b then Ordering.lt
      else Ordering.eq
  | TieBreakPolicy.MinId => (id_cmp a b).swap
  | TieBreakPolicy.MaxId => id_cmp a b

/-- Mirrors `Router::make_dispatch`. -/
def make_dispatch (r : Router K W) (phase : Phase) (node : K)
    (localizer : Localizer) (meta : Option M) : Dispatch K W M :=
  ⟨phase, node, r.lookup node, localizer, meta⟩

/-- The ancestor chain of `Router::reconstruct_path` before the final
reverse: the target, then its parents outward.  The Rust loop assumes an
acyclic ancestry (cyclic lookups diverge, declared undefined behavior by the
spec); `fuel` bounds the walk, and every theorem threads one fuel value
through both sides. -/
def ancestorChain (parent : K → Option K) : Nat → K → List K
  | 0, cur => [cur]
  | n + 1, cur =>
      cur :: (match parent cur with
        | some p => ancestorChain parent n p
        | none => [])

/-- Mirrors `Router::reconstruct_path`: collect to root, then reverse. -/
def reconstruct_path (parent : K → Option K) (fuel : Nat) (target : K) :
    List K :=
  (ancestorChain parent fuel target).reverse

/-- Mirrors `Router::emit_path`.  `path.last().unwrap()` panics on an empty
path; the panic is modelled by `none`. -/
def emit_path (r : Router K W) (path : List K) (localizer : Localizer)
    (meta : Option M) : Option (List (Dispatch K W M)) :=
  match path.getLast? with
  | none => none
  | some target =>
      some ((path.map fun n => make_dispatch r Phase.Capture n localizer meta)
        ++ [make_dispatch r Phase.Target target localizer meta]
        ++ (path.reverse.map fun n =>
              make_dispatch r Phase.Bubble n localizer meta))

/-- The single-pass selection loop of `Router::handle_with_hits`: keep the
current best hit, replacing it when the candidate is strictly nearer or wins
the tie-break (stable last-wins on `Equal`).  The Rust loop stores the best
index into `hits`; carrying the best hit itself is the same computation. -/
def selectBest (r : Router K W) (hits : List (ResolvedHit K M)) :
    Option (ResolvedHit K M) :=
  hits.foldl
    (fun best h =>
      match r.scope with
      | some f =>
          if ¬ f h.node then best
          else
            match best with
            | none => some h
            | some a =>
                let better :=
                  match a.depth_key.cmp h.depth_key with
                  | Ordering.lt => true
                  | Ordering.gt => false
                  | Ordering.eq =>
                      match tiebreak r a.node h.node with
                      | Ordering.lt => true
                      | Ordering.gt => false
                      | Ordering.eq => true
                if better then some h else some a
      | none =>
          match best with
          | none => some h
          | some a =>
              let better :=
                match a.depth_key.cmp h.depth_key with
                | Ordering.lt => true
                | Ordering.gt => false
                | Ordering.eq =>
                    match tiebreak r a.node h.node with
                    | Ordering.lt => true
                    | Ordering.gt => false
                    | Ordering.eq => true
              if better then some h else some a)
    none

/-- Mirrors `Router::handle_with_hits`.  The capture override routes to the
captured node using the last matching hit (`iter().rev().find`), bypassing
scope and ranking; otherwise the best-ranked candidate is selected.  `none`
models a Rust panic (which `emit_path` raises on an explicitly empty
path). -/
def handle_with_hits (r : Router K W) (fuel : Nat)
    (hits : List (ResolvedHit K M)) : Option (List (Dispatch K W M)) :=
  match r.capture with
  | some cap =>
      let cap_hit := hits.reverse.find? fun h => h.node = cap
      let sel : List K × Localizer × Option M :=
        match cap_hit with
        | some h =>
            match h.path with
            | some p => (p, h.localizer, some h.meta)
            | none =>
                (reconstruct_path r.parent fuel cap, h.localizer, some h.meta)
        | none =>
            (reconstruct_path r.parent fuel cap, Localizer.mk, none)
      emit_path r sel.1 sel.2.1 sel.2.2
  | none =>
      match selectBest r hits with
      | none => some []
      | some best =>
          let path : List K :=
            match best.path with
            | some p => p
            | none => reconstruct_path r.parent fuel best.node
          emit_path r path best.localizer (some best.meta)

end Router

/-! ### Hover state (`understory_responder/src/hover.rs`) -/

/-- Mirrors `HoverEvent`. -/
inductive HoverEvent (K : Type) where
  | Enter (k : K)
  | Leave (k : K)
deriving Repr, DecidableEq

/-- Mirrors `HoverState<K>`: the retained root-to-target path. -/
structure HoverState (K : Type) where
  current : List K
deriving Repr, DecidableEq

namespace HoverState

variable {K : Type} [DecidableEq K]

/-- The `while` loop of `HoverState::update_path` computing the common
prefix length of the two paths. -/
def lcaLen : List K → List K → Nat
  | a :: as_, b :: bs => if a = b then lcaLen as_ bs + 1 else 0
  | _, _ => 0

/-- Mirrors `HoverState::update_path`: leaves for the old tail inner→outer,
then enters for the new tail outer→inner; the state retains the new path. -/
def update_path (h : HoverState K) (new_path : List K) :
    List (HoverEvent K) × HoverState K :=
  let lca := lcaLen h.current new_path
  (((h.current.drop lca).reverse.map HoverEvent.Leave)
      ++ ((new_path.drop lca).map HoverEvent.Enter),
    ⟨new_path⟩)

/-- Mirrors `HoverState::clear`. -/
def clear (h : HoverState K) : List (HoverEvent K) × HoverState K :=
  (h.current.reverse.map HoverEvent.Leave, ⟨[]⟩)

end HoverState

/-- Mirrors `path_from_dispatch`: nodes of the contiguous leading `Capture`
entries, stopping at the first `Target` or `Bubble`. -/
def path_from_dispatch {K W M : Type} (seq : List (Dispatch K W M)) :
    List K :=
  (seq.takeWhile fun d => d.phase = Phase.Capture).map Dispatch.node

/-! ### Kurbo geometry used by the box tree, over exact `Rat` scalars.

The box tree stores `kurbo::Rect`, `kurbo::Point`, `kurbo::Affine` and
`kurbo::RoundedRect` in `f64`; inputs are assumed finite and NaN-free.  The
embedding uses `Rat`, which realises the same comparison and branch
structure exactly. -/

/-- Mirrors `kurbo::Point`. -/
structure KPoint where
  x : Rat
  y : Rat
deriving Repr, DecidableEq

/-- Mirrors `kurbo::Rect`. -/
structure KRect where
  x0 : Rat
  y0 : Rat
  x1 : Rat
  y1 : Rat
deriving Repr, DecidableEq

namespace KRect

/-- Mirrors `Rect::ZERO`. -/
def zero : KRect := ⟨0, 0, 0, 0⟩

/-- Mirrors `Rect::width`. -/
def width (r : KRect) : Rat := r.x1 - r.x0

/-- Mirrors `Rect::height`. -/
def height (r : KRect) : Rat := r.y1 - r.y0

/-- Mirrors `Rect::union` (component-wise min/max). -/
def union (r s : KRect) : KRect :=
  ⟨min r.x0 s.x0, min r.y0 s.y0, max r.x1 s.x1, max r.y1 s.y1⟩

/-- Mirrors `Rect::intersect`: intersection clamped so that the result never
has negative width or height. -/
def intersect (r s : KRect) : KRect :=
  let x0 := max r.x0 s.x0
  let y0 := max r.y0 s.y0
  let x1 := min r.x1 s.x1
  let y1 := min r.y1 s.y1
  ⟨x0, y0, max x1 x0, max y1 y0⟩

/-- Mirrors `Rect::contains` for points (kurbo uses half-open bounds). -/
def containsPt (r : KRect) (p : KPoint) : Bool :=
  decide (r.x0 ≤ p.x) && decide (p.x < r.x1) &&
    decide (r.y0 ≤ p.y) && decide (p.y < r.y1)

end KRect

/-- Mirrors `kurbo::Affine`, coefficients in kurbo order: the map sends
`(x, y)` to `(c0 x + c2 y + c4, c1 x + c3 y + c5)`. -/
structure KAffine where
  c0 : Rat
  c1 : Rat
  c2 : Rat
  c3 : Rat
  c4 : Rat
  c5 : Rat
deriving Repr, DecidableEq

namespace KAffine

/-- Mirrors `Affine::IDENTITY`. -/
def identity : KAffine := ⟨1, 0, 0, 1, 0, 0⟩

/-- Mirrors `Affine * Point`. -/
def apply (t : KAffine) (p : KPoint) : KPoint :=
  ⟨t.c0 * p.x + t.c2 * p.y + t.c4, t.c1 * p.x + t.c3 * p.y + t.c5⟩

/-- Mirrors `Affine * Affine` (composition: `(a.mul b).apply p =
a.apply (b.apply p)`). -/
def mul (a b : KAffine) : KAffine :=
  ⟨a.c0 * b.c0 + a.c2 * b.c1,
    a.c1 * b.c0 + a.c3 * b.c1,
    a.c0 * b.c2 + a.c2 * b.c3,
    a.c1 * b.c2 + a.c3 * b.c3,
    a.c0 * b.c4 + a.c2 * b.c5 + a.c4,
    a.c1 * b.c4 + a.c3 * b.c5 + a.c5⟩

/-- Mirrors `Affine::inverse`.  On a singular transform the `f64` code
produces infinities; `Rat` division by zero yields zero instead.  The claims
under study never depend on the numeric outcome of this branch. -/
def inverse (t : KAffine) : KAffine :=
  let inv_det := (t.c0 * t.c3 - t.c1 * t.c2)⁻¹
  ⟨t.c3 * inv_det, -t.c1 * inv_det, -t.c2 * inv_det, t.c0 * inv_det,
    (t.c2 * t.c5 - t.c3 * t.c4) * inv_det,
    (t.c1 * t.c4 - t.c0 * t.c5) * inv_det⟩

end KAffine

/-- Mirrors `kurbo::RoundedRect` as used by the tree: only `rect()` is ever
consulted (radii never affect the embedded code paths). -/
structure KRoundedRect where
  rect : KRect
deriving Repr, DecidableEq

/-! ### Box tree (`understory_box_tree/src/tree.rs` with the helpers of
`lib.rs`) -/

namespace BoxTree

/-- Mirrors `NodeId(u32, u32)`: field `0` is the slot, field `1` the
generation. -/
structure NodeId where
  slot : Nat
  generation : Nat
deriving Repr, DecidableEq

/-- Mirrors `NodeFlags` (bitflags with VISIBLE and PICKABLE). -/
structure NodeFlags where
  visible : Bool
  pickable : Bool
deriving Repr, DecidableEq

/-- Mirrors `NodeFlags::default` (`VISIBLE | PICKABLE`). -/
def NodeFlags.default : NodeFlags := ⟨true, true⟩

/-- Mirrors `LocalNode`. -/
structure LocalNode where
  local_bounds : KRect
  local_transform : KAffine
  local_clip : Option KRoundedRect
  z_index : Int
  flags : NodeFlags
deriving Repr, DecidableEq

/-- Mirrors `LocalNode::default`. -/
def LocalNode.default : LocalNode :=
  ⟨KRect.zero, KAffine.identity, none, 0, NodeFlags.default⟩

/-- Mirrors `WorldNode`. -/
structure WorldNode where
  world_transform : KAffine
  world_bounds : KRect
  world_clip : Option KRect
deriving Repr, DecidableEq

/-- Mirrors `WorldNode::default` (identity transform, zero rect, no clip). -/
def WorldNode.default : WorldNode := ⟨KAffine.identity, KRect.zero, none⟩

/-- Mirrors the `Dirty` flag record. -/
structure Dirty where
  layout : Bool
  transform : Bool
  clip : Bool
  z : Bool
  index : Bool
deriving Repr, DecidableEq

/-- Mirrors `Node` of `tree.rs`. -/
structure TNode where
  generation : Nat
  parent : Option NodeId
  children : List NodeId
  localData : LocalNode
  world : WorldNode
  dirty : Dirty
  index_key : Option Key
deriving Repr, DecidableEq

/-- Mirrors `Node::new`: fresh node with every dirty bit set. -/
def TNode.new (generation : Nat) (l : LocalNode) : TNode :=
  ⟨generation, none, [], l, WorldNode.default,
    ⟨true, true, true, true, true⟩, none⟩

/-- Mirrors `Tree` of `tree.rs`: node slots, persisted per-slot generations,
free list, epoch, and the flat-backed spatial index keyed by `NodeId`
payloads. -/
structure Tree where
  nodes : List (Option TNode)
  generations : List Nat
  free_list : List Nat
  epoch : Nat
  index : IndexState Rat NodeId (FlatState Rat)
deriving Repr, DecidableEq

/-- Mirrors `Tree::new`. -/
def Tree.empty : Tree := ⟨[], [], [], 0, Index.emptyState FlatVec.emptyState⟩

/-- Mirrors `QueryFilter`. -/
structure QueryFilter where
  visible_only : Bool
  pickable_only : Bool
deriving Repr, DecidableEq

/-- Mirrors `Hit`. -/
structure Hit where
  node : NodeId
  path : List NodeId
deriving Repr, DecidableEq

/-- Mirrors the box-tree `Damage` (coarse dirty rectangles). -/
structure TreeDamage where
  dirty_rects : List KRect
deriving Repr, DecidableEq

/-- Mirrors `transform_rect_bbox` of `lib.rs`: transform the four corners
and take the component-wise min/max. -/
def transform_rect_bbox (t : KAffine) (r : KRect) : KRect :=
  let p0 := t.apply ⟨r.x0, r.y0⟩
  let p1 := t.apply ⟨r.x1, r.y0⟩
  let p2 := t.apply ⟨r.x0, r.y1⟩
  let p3 := t.apply ⟨r.x1, r.y1⟩
  ⟨min (min (min p0.x p1.x) p2.x) p3.x,
    min (min (min p0.y p1.y) p2.y) p3.y,
    max (max (max p0.x p1.x) p2.x) p3.x,
    max (max (max p0.y p1.y) p2.y) p3.y⟩

/-- Mirrors `rect_to_aabb` of `lib.rs`. -/
def rect_to_aabb (r : KRect) : Aabb Rat := ⟨r.x0, r.y0, r.x1, r.y1⟩

namespace Tree

/-- Mirrors `Tree::is_alive`: the slot exists, is occupied, and the stored
generation matches. -/
def is_alive (t : Tree) (id : NodeId) : Bool :=
  match t.nodes.get? id.slot with
  | some (some n) => n.generation = id.generation
  | _ => false

/-- The read behind `Tree::node` / `Tree::node_mut`: `none` models the
`expect("dangling NodeId")` panic (vacant or out-of-range slot).  Note that
these accessors do not compare generations. -/
def nodeOf (t : Tree) (id : NodeId) : Option TNode :=
  match t.nodes.get? id.slot with
  | some (some n) => some n
  | _ => none

/-- Mirrors `Tree::node_opt_mut` (read side): `none` for vacant slots and
generation mismatches. -/
def node_opt (t : Tree) (id : NodeId) : Option TNode :=
  match t.nodes.get? id.slot with
  | some (some n) => if n.generation = id.generation then some n else none
  | _ => none

/-- Store a node back into its slot. -/
def setNode (t : Tree) (i : Nat) (n : Option TNode) : Tree :=
  { t with nodes := t.nodes.set i n }

/-- Mirrors `Tree::link_parent`: push onto the parent's child list, then set
the child's parent pointer; either `node_mut` may panic (`none`). -/
def link_parent (t : Tree) (id parent : NodeId) : Option Tree :=
  match nodeOf t parent with
  | none => none
  | some pn =>
      let t1 := setNode t parent.slot (some { pn with children := pn.children ++ [id] })
      match nodeOf t1 id with
      | none => none
      | some n => some (setNode t1 id.slot (some { n with parent := some parent }))

/-- Mirrors `Tree::unlink_parent`. -/
def unlink_parent (t : Tree) (id parent : NodeId) : Option Tree :=
  match nodeOf t parent with
  | none => none
  | some pn =>
      let t1 := setNode t parent.slot
        (some { pn with children := pn.children.filter fun c => c ≠ id })
      match nodeOf t1 id with
      | none => none
      | some n => some (setNode t1 id.slot (some { n with parent := none }))

/-- Mirrors `Tree::insert` of `tree.rs`: reuse a freed slot with the
persisted generation incremented (`saturating_add(1)`, which `Nat`
successor models below `u32::MAX`), or append a fresh slot at generation
one; then link under the parent.  `none` models the panics reachable through
`link_parent` (a dangling parent) and the `generations[idx]` indexing. -/
def insert (t : Tree) (parent : Option NodeId) (l : LocalNode) :
    Option (NodeId × Tree) :=
  let alloc : Option (Nat × Nat × Tree) :=
    match t.free_list with
    | idx :: rest =>
        match t.generations.get? idx with
        | none => none
        | some g =>
            let generation := g + 1
            some (idx, generation,
              { t with
                generations := t.generations.set idx generation
                nodes := t.nodes.set idx (some (TNode.new generation l))
                free_list := rest })
    | [] =>
        let generation := 1
        some (t.nodes.length, generation,
          { t with
            nodes := t.nodes ++ [some (TNode.new generation l)]
            generations := t.generations ++ [generation] })
  match alloc with
  | none => none
  | some (idx, generation, t1) =>
      let id : NodeId := ⟨idx, generation⟩
      match parent with
      | some p =>
          match link_parent t1 id p with
          | none => none
          | some t2 => some (id, t2)
      | none => some (id, t1)

/-- Mirrors `Tree::remove`: no-op on stale ids; otherwise detach from the
parent, recursively remove the subtree, drop the spatial-index entry, and
free the slot.  `fuel` bounds the recursion (the Rust recursion diverges on
cyclic child links, which the public API never creates); `none` models a
panic inside `unlink_parent`. -/
def removeFuel : Nat → Tree → NodeId → Option Tree
  | 0, _, _ => none
  | fuel + 1, t, id =>
      if is_alive t id then
        let detached : Option Tree :=
          match (nodeOf t id).bind TNode.parent with
          | some parent => unlink_parent t id parent
          | none => some t
        match detached with
        | none => none
        | some t1 =>
            let children := ((nodeOf t1 id).map TNode.children).getD []
            let folded : Option Tree :=
              children.foldl
                (fun acc c =>
                  match acc with
                  | none => none
                  | some u => removeFuel fuel u c)
                (some t1)
            match folded with
            | none => none
            | some t2 =>
                let t3 :=
                  match (nodeOf t2 id).bind TNode.index_key with
                  | some key => { t2 with index := Index.remove t2.index key }
                  | none => t2
                some { t3 with
                  nodes := t3.nodes.set id.slot none
                  free_list := id.slot :: t3.free_list }
      else some t

/-- Mirrors `Tree::set_local_transform` (stale ids are no-ops). -/
def set_local_transform (t : Tree) (id : NodeId) (tf : KAffine) : Tree :=
  match node_opt t id with
  | none => t
  | some n =>
      setNode t id.slot (some { n with
        localData := { n.localData with local_transform := tf }
        dirty := { n.dirty with transform := true, index := true } })

/-- Mirrors `Tree::set_local_clip`. -/
def set_local_clip (t : Tree) (id : NodeId) (clip : Option KRoundedRect) :
    Tree :=
  match node_opt t id with
  | none => t
  | some n =>
      setNode t id.slot (some { n with
        localData := { n.localData with local_clip := clip }
        dirty := { n.dirty with clip := true, index := true } })

/-- Mirrors `Tree::set_z_index`. -/
def set_z_index (t : Tree) (id : NodeId) (z : Int) : Tree :=
  match node_opt t id with
  | none => t
  | some n =>
      setNode t id.slot (some { n with
        localData := { n.localData with z_index := z }
        dirty := { n.dirty with z := true } })

/-- Mirrors `Tree::set_local_bounds`. -/
def set_local_bounds (t : Tree) (id : NodeId) (bounds : KRect) : Tree :=
  match node_opt t id with
  | none => t
  | some n =>
      setNode t id.slot (some { n with
        localData := { n.localData with local_bounds := bounds }
        dirty := { n.dirty with layout := true, index := true } })

/-- Mirrors `Tree::set_flags`. -/
def set_flags (t : Tree) (id : NodeId) (flags : NodeFlags) : Tree :=
  match node_opt t id with
  | none => t
  | some n =>
      setNode t id.slot (some { n with
        localData := { n.localData with flags := flags }
        dirty := { n.dirty with index := true } })

/-- Mirrors `Tree::z_index` (the accessor): `None` for stale ids. -/
def z_index_of (t : Tree) (id : NodeId) : Option Int :=
  if is_alive t id then (nodeOf t id).map fun n => n.localData.z_index
  else none

/-- Mirrors the private `Tree::id_is_newer`: higher generation wins, then
higher slot. -/
def id_is_newer (a b : NodeId) : Bool :=
  decide (a.generation > b.generation) ||
    (decide (a.generation = b.generation) && decide (a.slot > b.slot))

/-- The root list computed at the top of `Tree::commit`: occupied slots
whose node has no parent, in slot order. -/
def rootIds (t : Tree) : List NodeId :=
  t.nodes.enum.filterMap fun p =>
    match p.2 with
    | some n => if n.parent = none then some ⟨p.1, n.generation⟩ else none
    | none => none

/-- Mirrors `Tree::update_world_recursive`: recompute the world transform,
bounds and clip, mirror the AABB into the index (update when a key exists,
insert and store the key otherwise), emit old/new damage rects for changed
non-degenerate bounds, and recurse into the children with the new transform
and clip.  Returns the damage appended in traversal order; `fuel` bounds the
recursion and `none` models fuel exhaustion or a `node_mut` panic. -/
def updateWorldRec : Nat → Tree → NodeId → KAffine → Option KRect →
    Option (Tree × List KRect)
  | 0, _, _, _, _ => none
  | fuel + 1, t, id, parent_tf, parent_clip =>
      match nodeOf t id with
      | none => none
      | some node =>
          let old := node.world.world_bounds
          let wt := parent_tf.mul node.localData.local_transform
          let wb0 := transform_rect_bbox wt node.localData.local_bounds
          let wclip : Option KRect :=
            match node.localData.local_clip with
            | some rr => some (transform_rect_bbox wt rr.rect)
            | none => parent_clip
          let wb := match wclip with
            | some c => wb0.intersect c
            | none => wb0
          let aabb := rect_to_aabb wb
          let node1 : TNode :=
            { node with world := ⟨wt, wb, wclip⟩ }
          let t1 := setNode t id.slot (some node1)
          let t2 : Tree :=
            match node.index_key with
            | some key => { t1 with index := Index.update t1.index key aabb }
            | none =>
                let r := Index.insert t1.index aabb id
                { (setNode t1 id.slot (some { node1 with index_key := some r.1 }))
                  with index := r.2 }
          let selfDamage : List KRect :=
            if old ≠ wb then
              (if 0 < old.width ∧ 0 < old.height then [old] else []) ++
                (if 0 < wb.width ∧ 0 < wb.height then [wb] else [])
            else []
          let folded : Option (Tree × List KRect) :=
            node.children.foldl
              (fun acc c =>
                match acc with
                | none => none
                | some (u, dmg) =>
                    match updateWorldRec fuel u c wt wclip with
                    | none => none
                    | some (u1, d1) => some (u1, dmg ++ d1))
              (some (t2, selfDamage))
          folded

/-- Mirrors `Tree::commit`: recompute world data from every root, then
commit the spatial index and append the union of its damage. -/
def commitFuel (fuel : Nat) (t : Tree) : Option (Tree × TreeDamage) :=
  let folded : Option (Tree × List KRect) :=
    (rootIds t).foldl
      (fun acc root =>
        match acc with
        | none => none
        | some (u, dmg) =>
            match updateWorldRec fuel u root KAffine.identity none with
            | none => none
            | some (u1, d1) => some (u1, dmg ++ d1))
      (some (t, []))
  match folded with
  | none => none
  | some (t1, dmg) =>
      let r := Index.commit FlatVec.ops t1.index
      let dirty :=
        match r.2.union with
        | some u => dmg ++ [(⟨u.min_x, u.min_y, u.max_x, u.max_y⟩ : KRect)]
        | none => dmg
      some ({ t1 with index := r.1 }, ⟨dirty⟩)

/-- The loop of `Tree::path_to_root` before the reverse: the node, then its
ancestors.  `none` models the `node` panic and fuel exhaustion. -/
def pathChain : Nat → Tree → NodeId → Option (List NodeId)
  | 0, _, _ => none
  | fuel + 1, t, id =>
      match nodeOf t id with
      | none => none
      | some n =>
          match n.parent with
          | none => some [id]
          | some p => (pathChain fuel t p).map fun l => id :: l

/-- Mirrors `Tree::path_to_root`. -/
def path_to_root (fuel : Nat) (t : Tree) (id : NodeId) :
    Option (List NodeId) :=
  (pathChain fuel t id).map List.reverse

/-- The acceptance test applied to each hit-test candidate: the slot must be
occupied (`self.nodes[id.idx()].as_ref()`, generation not compared), the
filter flags must pass, and with a local clip the inverse-transformed point
must lie inside the clip rectangle. -/
def survives (t : Tree) (pt : KPoint) (filter : QueryFilter) (id : NodeId) :
    Option Int :=
  match nodeOf t id with
  | none => none
  | some node =>
      if filter.visible_only ∧ ¬ node.localData.flags.visible then none
      else if filter.pickable_only ∧ ¬ node.localData.flags.pickable then none
      else
        match node.localData.local_clip with
        | some clip =>
            let world_pt := (node.world.world_transform.inverse).apply pt
            if clip.rect.containsPt world_pt then some node.localData.z_index
            else none
        | none => some node.localData.z_index

/-- The candidate list of `Tree::hit_test_point`: index query payloads. -/
def hitCandidates (t : Tree) (pt : KPoint) : List NodeId :=
  (Index.query_point FlatVec.ops t.index pt.x pt.y).map fun kp => kp.2

/-- The body of the selection loop of `Tree::hit_test_point`: skip the
candidate when it fails the filter or clip checks, otherwise keep the best
by `z_index`, the newer id on ties (`z > z_best || (z == z_best &&
self.id_is_newer(id, best_id))`). -/
def hitStep (t : Tree) (pt : KPoint) (filter : QueryFilter)
    (best : Option (NodeId × Int)) (id : NodeId) : Option (NodeId × Int) :=
  match survives t pt filter id with
  | none => best
  | some z =>
      match best with
      | none => some (id, z)
      | some (best_id, z_best) =>
          if z > z_best ∨ (z = z_best ∧ id_is_newer id best_id) then
            some (id, z)
          else some (best_id, z_best)

/-- Mirrors `Tree::hit_test_point`: gather candidates from the index, drop
those failing the filter or clip checks, keep the best by `z_index` with the
newer-id tie-break, and return it with its root path.  The outer `Option`
models panics (an out-of-range candidate slot would panic in Rust; the
`survives` helper skips it, so theorems assume in-range candidates) and the
`path_to_root` fuel. -/
def hit_test_point (fuel : Nat) (t : Tree) (pt : KPoint)
    (filter : QueryFilter) : Option (Option Hit) :=
  match (hitCandidates t pt).foldl (hitStep t pt filter) none with
  | none => some none
  | some (id, _) =>
      match path_to_root fuel t id with
      | none => none
      | some p => some (some ⟨id, p⟩)

end Tree

end BoxTree

/-! ### Specification-side helper definitions used by the theorems -/

/-- Apply a batch of AABB updates through one key (used to state the damage
claims about repeated `update` calls). -/
def applyUpdates {α P σ : Type} [DecidableEq α] (us : List (Aabb α)) (k : Key)
    (s : IndexState α P σ) : IndexState α P σ :=
  us.foldl (fun st x => Index.update st k x) s

/-- The length of the longest common prefix of two lists, stated
independently of the hover loop (via `zip` and `takeWhile`). -/
def commonPrefixLenSpec {K : Type} [DecidableEq K] (a b : List K) : Nat :=
  ((a.zip b).takeWhile fun p => decide (p.1 = p.2)).length

/-- The strict priority order `Tree::hit_test_point` maximises: strictly
higher `z_index` first, the newer id (higher generation, then higher slot)
on ties. -/
def hitPriorityLt (za : Int) (a : BoxTree.NodeId) (zb : Int)
    (b : BoxTree.NodeId) : Prop :=
  za < zb ∨ (za = zb ∧ BoxTree.Tree.id_is_newer b a)

/-- The hit-test contract stated from the spec: a `none` result means no
candidate survives; a `some` result names a surviving candidate that no
surviving candidate strictly beats (by `hitPriorityLt`), carrying its
root-to-node path. -/
def hitIsTopmost (fuel : Nat) (t : BoxTree.Tree) (pt : KPoint)
    (filter : BoxTree.QueryFilter) (res : Option BoxTree.Hit) : Prop :=
  match res with
  | none =>
      ∀ c ∈ BoxTree.Tree.hitCandidates t pt,
        BoxTree.Tree.survives t pt filter c = none
  | some hit =>
      hit.node ∈ BoxTree.Tree.hitCandidates t pt
      ∧ BoxTree.Tree.path_to_root fuel t hit.node = some hit.path
      ∧ ∃ z, BoxTree.Tree.survives t pt filter hit.node = some z
          ∧ ∀ c ∈ BoxTree.Tree.hitCandidates t pt,
              ∀ zc, BoxTree.Tree.survives t pt filter c = some zc →
                ¬ hitPriorityLt z hit.node zc c

/-- A concrete input for the equal-`z` replacement scenario: a 10 by 10
box at `z_index` 0 with default flags. -/
def demoLocal : BoxTree.LocalNode :=
  ⟨⟨0, 0, 10, 10⟩, KAffine.identity, none, 0, BoxTree.NodeFlags.default⟩

/-- The committed state of the replacement scenario: two overlapping
equal-`z` siblings at slots 0 and 1, where slot 1 was freed (removing the
generation-1 sibling) and reused by a replacement at generation 2; both
nodes are roots with identity transforms, world bounds `(0,0)-(10,10)`
mirrored into the flat-backed index.  Written as the literal world state
(`Rat` products of the commit arithmetic do not reduce in the kernel, so
the replayed chain is kept to evaluation; the hit-test claim itself reads
only this state). -/
def demoTree : BoxTree.Tree :=
  { nodes :=
      [some ⟨1, none, [], demoLocal,
          ⟨KAffine.identity, ⟨0, 0, 10, 10⟩, none⟩,
          ⟨false, false, false, false, false⟩, some ⟨0, 1⟩⟩,
        some ⟨2, none, [], demoLocal,
          ⟨KAffine.identity, ⟨0, 0, 10, 10⟩, none⟩,
          ⟨false, false, false, false, false⟩, some ⟨1, 2⟩⟩]
    generations := [1, 2]
    free_list := []
    epoch := 0
    index :=
      { entries :=
          [some ⟨1, ⟨0, 0, 10, 10⟩, ⟨0, 1⟩, none, none⟩,
            some ⟨2, ⟨0, 0, 10, 10⟩, ⟨1, 2⟩, none, none⟩]
        free_list := []
        backend :=
          [some ⟨0, 0, 10, 10⟩, some ⟨0, 0, 10, 10⟩] } }

/-- Every entry of a flat-backed index is committed: no pending mark, no
recorded previous AABB, and the backend slot (when the backend covers it)
holds exactly the entry's AABB.  This is the index half of the spec's
"nothing is dirty" precondition for commit idempotence. -/
def CleanIndex (s : IndexState Rat BoxTree.NodeId (FlatState Rat)) : Prop :=
  ∀ i e, s.entries.get? i = some (some e) →
    e.mark = none ∧ e.prev_aabb = none ∧
      (s.backend.get? i = some (some e.aabb) ∨ s.backend.length ≤ i)

/-- `s1` is `s0` with some committed entries re-marked `Updated` exactly the
way a same-AABB `update` marks them (`prev_aabb` recording the unchanged
AABB): the shape a redundant world pass leaves the index in. -/
def MarkedUpd (s0 s1 : IndexState Rat BoxTree.NodeId (FlatState Rat)) :
    Prop :=
  s1.backend = s0.backend ∧ s1.free_list = s0.free_list
    ∧ s1.entries.length = s0.entries.length
    ∧ ∀ i, s1.entries.get? i = s0.entries.get? i
        ∨ ∃ e, s0.entries.get? i = some (some e) ∧ e.mark = none
            ∧ e.prev_aabb = none
            ∧ s1.entries.get? i = some (some { e with
                mark := some Mark.Updated, prev_aabb := some e.aabb })

/-- The world data reachable from `id` is up to date: every node on the
subtree stores exactly the world transform, bounds and clip that
`update_world_recursive` would recompute from `(ptf, pclip)`, carries an
index key, and any live entry that key names holds the node's AABB (read
against the base index `s0`).  This is the tree half of the spec's "nothing
is dirty" precondition; `fuel` bounds the subtree depth as in
`updateWorldRec`. -/
def WorldOK : Nat → List (Option BoxTree.TNode) → BoxTree.NodeId →
    KAffine → Option KRect →
    IndexState Rat BoxTree.NodeId (FlatState Rat) → Prop
  | 0, _, _, _, _, _ => False
  | fuel + 1, nodes, id, ptf, pclip, s0 =>
      ∃ n, nodes.get? id.slot = some (some n) ∧
        (let wt := ptf.mul n.localData.local_transform
         let wb0 := BoxTree.transform_rect_bbox wt n.localData.local_bounds
         let wclip : Option KRect :=
           match n.localData.local_clip with
           | some rr => some (BoxTree.transform_rect_bbox wt rr.rect)
           | none => pclip
         let wb := match wclip with
           | some c => wb0.intersect c
           | none => wb0
         n.world = ⟨wt, wb, wclip⟩
           ∧ (∃ k, n.index_key = some k
               ∧ ∀ e, Index.entry_at s0 k = some e →
                   e.aabb = BoxTree.rect_to_aabb wb)
           ∧ ∀ c ∈ n.children, WorldOK fuel nodes c wt wclip s0)

/-- Every live slot of the flat oracle is registered, under its AABB's full
cell cover, in the grid's cell lists (the refinement invariant relating the
two backends after identical operation sequences). -/
def GridCovered (g : GridState) (f : FlatState Int) : Prop :=
  ∀ slot a, f.get? slot = some (some a) →
    ∀ key ∈ GridI64.cells_for_aabb g a,
      ∃ c ∈ g.cells, c.cx = key.1 ∧ c.cy = key.2 ∧ slot ∈ c.slots

/-- The grid/flat simulation invariant: the grid's entry vector mirrors the
flat state, cell keys are unique, and every live slot is covered. -/
def GridWf (g : GridState) (f : FlatState Int) : Prop :=
  g.entries = f
  ∧ (g.cells.map fun c => (c.cx, c.cy)).Nodup
  ∧ GridCovered g f

/-- The grid's construction parameters (never changed by any backend
operation). -/
def GridParams (g : GridState) (cw ch ox oy : Int) : Prop :=
  g.cell_w = cw ∧ g.cell_h = ch ∧ g.origin_x = ox ∧ g.origin_y = oy

end Understory

/-! ## Theorems settling the claims -/

namespace Understory


/-! #### List helper lemmas -/

theorem list_set_of_get? {β : Type} (l : List β) (n : Nat) (a : β)
    (h : l.get? n = some a) : l.set n a = l := by
  apply List.ext_get?
  intro i
  rw [List.get?_set]
  by_cases hi : n = i
  · subst hi; rw [h]; simp
  · simp [hi]

theorem find?_reverse_eq_getLast?_filter {β : Type} (l : List β)
    (p : β → Bool) : l.reverse.find? p = (l.filter p).getLast? := by
  rw [← List.filter_head?, List.filter_reverse, List.head?_reverse]

/-! #### Claim C7: hover LCA transitions -/

theorem lcaLen_eq_commonPrefixLenSpec {K : Type} [DecidableEq K]
    (a b : List K) : HoverState.lcaLen a b = commonPrefixLenSpec a b := by
  induction a generalizing b with
  | nil => cases b <;> rfl
  | cons x t ih =>
      cases b with
      | nil => rfl
      | cons y u =>
          by_cases hxy : x = y
          · simp [HoverState.lcaLen, commonPrefixLenSpec, hxy,
              List.takeWhile, List.zip, ih u]
          · simp [HoverState.lcaLen, commonPrefixLenSpec, hxy,
              List.takeWhile, List.zip]

/-- C7: for every current hover path and every new path, `update_path`
computes `lca` as the length of the longest common prefix of the two paths,
emits `Leave` events for `current[lca..]` in reverse order (inner to outer)
followed by `Enter` events for `new_path[lca..]` in forward order (outer to
inner), and afterwards the retained current path equals the new path. -/
theorem hover_update_path_lca_events {K : Type} [DecidableEq K]
    (h : HoverState K) (new_path : List K) :
    (h.update_path new_path).1
        = ((h.current.drop (commonPrefixLenSpec h.current new_path)).reverse.map
              HoverEvent.Leave)
          ++ ((new_path.drop (commonPrefixLenSpec h.current new_path)).map
              HoverEvent.Enter)
      ∧ (h.update_path new_path).2.current = new_path := by
  unfold HoverState.update_path
  rw [lcaLen_eq_commonPrefixLenSpec]
  exact ⟨rfl, rfl⟩

/-! #### Claim C2: generations are reset when a freed slot is reused -/

/-- C2 (failing-input evidence): the index resets the per-slot generation
when a freed slot is reused, so the key issued by the later insert is equal
to the earlier key and the earlier key is live again, aliasing the new
entry.  Both the uncommitted path (insert, remove, insert) and the committed
path (insert, commit, remove, commit, insert) exhibit this. -/
theorem index_slot_reuse_resets_generation_and_aliases :
    (let s0 : IndexState Int Nat (FlatState Int) :=
      Index.emptyState FlatVec.emptyState
     let r1 := Index.insert s0 ⟨0, 0, 10, 10⟩ 1
     let r3 := Index.insert (Index.remove r1.2 r1.1) ⟨0, 0, 10, 10⟩ 2
     r3.1 = r1.1 ∧ Index.isLive r3.2 r1.1)
    ∧
    (let B := @FlatVec.ops Int _
     let s0 : IndexState Int Nat (FlatState Int) :=
      Index.emptyState FlatVec.emptyState
     let r1 := Index.insert s0 ⟨0, 0, 10, 10⟩ 1
     let s2 := (Index.commit B (Index.remove (Index.commit B r1.2).1 r1.1)).1
     let r3 := Index.insert s2 ⟨5, 5, 6, 6⟩ 2
     r3.1 = r1.1 ∧ Index.isLive r3.2 r1.1) := by
  exact ⟨⟨rfl, by decide⟩, ⟨rfl, by decide⟩⟩

/-! #### Claim C5: moved damage for updated entries -/

theorem applyUpdates_added {α P σ : Type} [DecidableEq α] (us : List (Aabb α))
    (g : Nat) (c : Aabb α) (p : P) (pr : Option (Aabb α)) (fl : List Nat)
    (bk : σ) :
    applyUpdates us ⟨0, g⟩
        (⟨[some ⟨g, c, p, some Mark.Added, pr⟩], fl, bk⟩ : IndexState α P σ)
      = ⟨[some ⟨g, us.getLastD c, p, some Mark.Added, pr⟩], fl, bk⟩ := by
  induction us generalizing c with
  | nil => rfl
  | cons x t ih =>
      show applyUpdates t ⟨0, g⟩ (Index.update _ _ x) = _
      rw [show Index.update
          (⟨[some ⟨g, c, p, some Mark.Added, pr⟩], fl, bk⟩ : IndexState α P σ)
          ⟨0, g⟩ x
        = ⟨[some ⟨g, x, p, some Mark.Added, pr⟩], fl, bk⟩ by
          simp [Index.update, Index.entry_at]]
      rw [ih x, List.getLastD_cons]

theorem applyUpdates_updated {α P σ : Type} [DecidableEq α]
    (us : List (Aabb α)) (g : Nat) (c : Aabb α) (p : P)
    (pr : Option (Aabb α)) (fl : List Nat) (bk : σ) :
    applyUpdates us ⟨0, g⟩
        (⟨[some ⟨g, c, p, some Mark.Updated, pr⟩], fl, bk⟩ : IndexState α P σ)
      = ⟨[some ⟨g, us.getLastD c, p, some Mark.Updated, pr⟩], fl, bk⟩ := by
  induction us generalizing c with
  | nil => rfl
  | cons x t ih =>
      show applyUpdates t ⟨0, g⟩ (Index.update _ _ x) = _
      rw [show Index.update
          (⟨[some ⟨g, c, p, some Mark.Updated, pr⟩], fl, bk⟩ : IndexState α P σ)
          ⟨0, g⟩ x
        = ⟨[some ⟨g, x, p, some Mark.Updated, pr⟩], fl, bk⟩ by
          simp [Index.update, Index.entry_at]]
      rw [ih x, List.getLastD_cons]

theorem commit_single_updated {α P σ : Type} [DecidableEq α]
    (B : BackendOps α σ) (g : Nat) (c : Aabb α) (p : P)
    (pr : Option (Aabb α)) (fl : List Nat) (bk : σ) :
    Index.commit B
        (⟨[some ⟨g, c, p, some Mark.Updated, pr⟩], fl, bk⟩ : IndexState α P σ)
      = (⟨[some ⟨g, c, p, none, none⟩], fl, B.update bk 0 c⟩,
          ⟨[], [],
            match pr with
            | some prev => if prev ≠ c then [(prev, c)] else []
            | none => []⟩) := by
  unfold Index.commit
  rw [show List.range
      (⟨[some ⟨g, c, p, some Mark.Updated, pr⟩], fl, bk⟩ :
        IndexState α P σ).entries.length = [0] from rfl]
  rw [List.foldl_cons, List.foldl_nil]
  unfold Index.commitStep
  simp only []
  refine Prod.ext ?_ ?_
  · rfl
  · show (match pr with
      | some prev =>
          if prev ≠ c then
            { Damage.empty with moved := Damage.empty.moved ++ [(prev, c)] }
          else (Damage.empty : Damage α)
      | none => (Damage.empty : Damage α)) = _
    cases pr with
    | none => rfl
    | some prev =>
        by_cases h : prev = c <;> simp [h, Damage.empty]

theorem commit_single_added {α P σ : Type} [DecidableEq α]
    (B : BackendOps α σ) (g : Nat) (c : Aabb α) (p : P)
    (pr : Option (Aabb α)) (fl : List Nat) (bk : σ) :
    Index.commit B
        (⟨[some ⟨g, c, p, some Mark.Added, pr⟩], fl, bk⟩ : IndexState α P σ)
      = (⟨[some ⟨g, c, p, none, pr⟩], fl, B.insert bk 0 c⟩, ⟨[c], [], []⟩) :=
  rfl

theorem commit_single_clean {α P σ : Type} [DecidableEq α]
    (B : BackendOps α σ) (g : Nat) (c : Aabb α) (p : P)
    (pr : Option (Aabb α)) (fl : List Nat) (bk : σ) :
    Index.commit B
        (⟨[some ⟨g, c, p, none, pr⟩], fl, bk⟩ : IndexState α P σ)
      = (⟨[some ⟨g, c, p, none, pr⟩], fl, bk⟩, ⟨[], [], []⟩) := rfl

/-- C5: on an index holding one committed entry with AABB `a`, a batch of
updates through the live key followed by `commit` yields a damage report
whose `moved` list is exactly `[(a, final)]` when the final AABB differs
from `a` and empty when `prev_aabb` equals the final AABB (and no
`added`/`removed`); an entry still marked `Added` (obtained from `insert`,
never committed) absorbs any number of updates without emitting `moved` and
reports only one `added` AABB on its first commit. -/
theorem index_update_commit_moved_damage {α P σ : Type} [DecidableEq α]
    (B : BackendOps α σ) (bk : σ) (fl : List Nat) (g : Nat)
    (a : Aabb α) (p : P) (us : List (Aabb α)) :
    (Index.commit B (applyUpdates us ⟨0, g⟩
        (⟨[some ⟨g, a, p, none, none⟩], fl, bk⟩ : IndexState α P σ))).2
      = ⟨[], [], if a ≠ us.getLastD a then [(a, us.getLastD a)] else []⟩
    ∧ (let r := Index.insert (Index.emptyState bk : IndexState α P σ) a p
       (Index.commit B (applyUpdates us r.1 r.2)).2
          = ⟨[us.getLastD a], [], []⟩) := by
  constructor
  · cases us with
    | nil =>
        rw [show applyUpdates [] (⟨0, g⟩ : Key)
            (⟨[some ⟨g, a, p, none, none⟩], fl, bk⟩ : IndexState α P σ)
          = ⟨[some ⟨g, a, p, none, none⟩], fl, bk⟩ from rfl]
        rw [commit_single_clean]
        simp
    | cons x t =>
        rw [show applyUpdates (x :: t) ⟨0, g⟩
            (⟨[some ⟨g, a, p, none, none⟩], fl, bk⟩ : IndexState α P σ)
          = applyUpdates t ⟨0, g⟩
              (⟨[some ⟨g, x, p, some Mark.Updated, some a⟩], fl, bk⟩ :
                IndexState α P σ) from by
          show applyUpdates t ⟨0, g⟩ (Index.update _ _ x) = _
          simp [Index.update, Index.entry_at]]
        rw [applyUpdates_updated, commit_single_updated, List.getLastD_cons]
  · show (Index.commit B (applyUpdates us ⟨0, 1⟩
        (⟨[some ⟨1, a, p, some Mark.Added, none⟩], [], bk⟩ :
          IndexState α P σ))).2 = _
    rw [applyUpdates_added, commit_single_added]

/-! #### Claim C6: insert-then-remove before commit leaves no trace -/

theorem commitStep_append_none {α P σ : Type} [DecidableEq α]
    (B : BackendOps α σ) (st st2 : IndexState α P σ) (d : Damage α)
    (i : Nat) (he : st2.entries = st.entries ++ [none])
    (hb : st2.backend = st.backend) (hi : i < st.entries.length) :
    (Index.commitStep B (st2, d) i).1.entries
        = (Index.commitStep B (st, d) i).1.entries ++ [none]
      ∧ (Index.commitStep B (st2, d) i).1.backend
        = (Index.commitStep B (st, d) i).1.backend
      ∧ (Index.commitStep B (st2, d) i).2 = (Index.commitStep B (st, d) i).2
      ∧ (Index.commitStep B (st, d) i).1.entries.length
        = st.entries.length := by
  have hget2 : (st.entries ++ [none])[i]? = st.entries[i]? :=
    List.getElem?_append_left hi
  have hset : ∀ (v : Option (Entry α P)),
      (st.entries ++ [none]).set i v = st.entries.set i v ++ [none] := by
    intro v; exact List.set_append_left i v hi
  cases hg : st.entries[i]? with
  | none => simp [Index.commitStep, hget2, hg, he, hb]
  | some o =>
      cases o with
      | none => simp [Index.commitStep, hget2, hg, he, hb]
      | some e =>
          cases hm : e.mark with
          | none => simp [Index.commitStep, hget2, hg, hm, hset, hb, he]
          | some m =>
              cases m <;> simp [Index.commitStep, hget2, hg, hm, hset, hb, he]

theorem foldl_commit_append_none {α P σ : Type} [DecidableEq α]
    (B : BackendOps α σ) (is : List Nat) :
    ∀ (st st2 : IndexState α P σ) (d : Damage α),
      st2.entries = st.entries ++ [none] → st2.backend = st.backend →
      (∀ i ∈ is, i < st.entries.length) →
      (is.foldl (Index.commitStep B) (st2, d)).1.entries
          = (is.foldl (Index.commitStep B) (st, d)).1.entries ++ [none]
        ∧ (is.foldl (Index.commitStep B) (st2, d)).1.backend
          = (is.foldl (Index.commitStep B) (st, d)).1.backend
        ∧ (is.foldl (Index.commitStep B) (st2, d)).2
          = (is.foldl (Index.commitStep B) (st, d)).2
        ∧ (is.foldl (Index.commitStep B) (st, d)).1.entries.length
          = st.entries.length := by
  induction is with
  | nil => intro st st2 d he hb _; exact ⟨he, hb, rfl, rfl⟩
  | cons i rest ih =>
      intro st st2 d he hb hlt
      have h1 := commitStep_append_none B st st2 d i he hb
        (hlt i (List.mem_cons_self i rest))
      rw [List.foldl_cons, List.foldl_cons]
      have hstep2 : Index.commitStep B (st2, d) i
          = ((Index.commitStep B (st2, d) i).1,
              (Index.commitStep B (st, d) i).2) := by
        rw [← h1.2.2.1]
      rw [hstep2, show Index.commitStep B (st, d) i
          = ((Index.commitStep B (st, d) i).1,
              (Index.commitStep B (st, d) i).2) from rfl]
      have hrest := ih (Index.commitStep B (st, d) i).1
        (Index.commitStep B (st2, d) i).1
        (Index.commitStep B (st, d) i).2 h1.1 h1.2.1
        (fun j hj => by rw [h1.2.2.2]; exact hlt j (List.mem_cons_of_mem _ hj))
      exact ⟨hrest.1, hrest.2.1, hrest.2.2.1, by rw [hrest.2.2.2, h1.2.2.2]⟩

theorem commit_entries_append_none {α P σ : Type} [DecidableEq α]
    (B : BackendOps α σ) (st st2 : IndexState α P σ)
    (he : st2.entries = st.entries ++ [none])
    (hb : st2.backend = st.backend) :
    (Index.commit B st2).1.entries
        = (Index.commit B st).1.entries ++ [none]
      ∧ (Index.commit B st2).1.backend = (Index.commit B st).1.backend
      ∧ (Index.commit B st2).2 = (Index.commit B st).2 := by
  unfold Index.commit
  have hlen2 : st2.entries.length = st.entries.length + 1 := by
    rw [he]; simp
  rw [hlen2, List.range_succ, List.foldl_append]
  have hmain := foldl_commit_append_none B (List.range st.entries.length)
    st st2 Damage.empty he hb (fun i hi => List.mem_range.mp hi)
  set r := (List.range st.entries.length).foldl (Index.commitStep B)
    (st, Damage.empty) with hr
  set r2 := (List.range st.entries.length).foldl (Index.commitStep B)
    (st2, Damage.empty) with hr2
  have hvac : r2.1.entries[st.entries.length]? = some none := by
    rw [hmain.1, ← hmain.2.2.2]
    exact List.getElem?_concat_length r.1.entries none
  have hstep : Index.commitStep B r2 st.entries.length
      = r2 := by
    have hpair : r2 = (r2.1, r2.2) := rfl
    rw [hpair]
    simp [Index.commitStep, hvac]
  rw [List.foldl_cons, List.foldl_nil, hstep]
  exact ⟨hmain.1, hmain.2.1, hmain.2.2.1⟩

theorem query_point_append_none {α P σ : Type} [DecidableEq α]
    [LinearOrder α] (B : BackendOps α σ) (st st2 : IndexState α P σ)
    (he : st2.entries = st.entries ++ [none])
    (hb : st2.backend = st.backend) (x y : α) :
    Index.query_point B st2 x y = Index.query_point B st x y := by
  unfold Index.query_point
  rw [hb]
  apply List.filterMap_congr
  intro i _
  rw [he]
  by_cases hi : i < st.entries.length
  · rw [List.get?_append hi]
  · by_cases hieq : i = st.entries.length
    · subst hieq
      rw [List.get?_concat_length, List.get?_len_le (Nat.le_of_not_lt hi)]
    · have hge : st.entries.length + 1 ≤ i := by omega
      rw [List.get?_len_le (by simpa using hge),
        List.get?_len_le (Nat.le_of_not_lt hi)]

theorem query_rect_append_none {α P σ : Type} [DecidableEq α]
    [LinearOrder α] (B : BackendOps α σ) (st st2 : IndexState α P σ)
    (he : st2.entries = st.entries ++ [none])
    (hb : st2.backend = st.backend) (rect : Aabb α) :
    Index.query_rect B st2 rect = Index.query_rect B st rect := by
  unfold Index.query_rect
  rw [hb]
  apply List.filterMap_congr
  intro i _
  rw [he]
  by_cases hi : i < st.entries.length
  · rw [List.get?_append hi]
  · by_cases hieq : i = st.entries.length
    · subst hieq
      rw [List.get?_concat_length, List.get?_len_le (Nat.le_of_not_lt hi)]
    · have hge : st.entries.length + 1 ≤ i := by omega
      rw [List.get?_len_le (by simpa using hge),
        List.get?_len_le (Nat.le_of_not_lt hi)]

/-- C6: inserting an entry and removing it again before any commit leaves no
trace.  On any index whose free list points only at vacant slots, the
following commit reports exactly the damage it would have reported without
the insert/remove pair, and point and rectangle queries on the committed
state are unchanged; in particular, starting from an empty index the commit
damage is empty and `query_point` returns nothing. -/
theorem index_insert_remove_before_commit_invisible {α P σ : Type}
    [DecidableEq α] [LinearOrder α] (B : BackendOps α σ)
    (s : IndexState α P σ) (a : Aabb α) (p : P) (bk : σ)
    (hwf : ∀ i ∈ s.free_list, s.entries.get? i = some none) :
    ((Index.commit B (Index.remove (Index.insert s a p).2
          (Index.insert s a p).1)).2
        = (Index.commit B s).2
      ∧ (∀ x y, Index.query_point B
            (Index.commit B (Index.remove (Index.insert s a p).2
              (Index.insert s a p).1)).1 x y
          = Index.query_point B (Index.commit B s).1 x y)
      ∧ (∀ rect, Index.query_rect B
            (Index.commit B (Index.remove (Index.insert s a p).2
              (Index.insert s a p).1)).1 rect
          = Index.query_rect B (Index.commit B s).1 rect))
    ∧ ((Index.commit B (Index.remove
          (Index.insert (Index.emptyState bk : IndexState α P σ) a p).2
          (Index.insert (Index.emptyState bk : IndexState α P σ) a p).1)).2
        = Damage.empty
      ∧ ∀ x y, Index.query_point B
          (Index.commit B (Index.remove
            (Index.insert (Index.emptyState bk : IndexState α P σ) a p).2
            (Index.insert (Index.emptyState bk : IndexState α P σ) a p).1)).1
          x y = []) := by
  constructor
  · cases hfl : s.free_list with
    | cons idx rest =>
        have hvac : s.entries.get? idx = some none :=
          hwf idx (by rw [hfl]; exact List.mem_cons_self idx rest)
        have hvacE : s.entries[idx]? = some none := by simpa using hvac
        have hidx : idx < s.entries.length := by
          rcases List.get?_eq_some.mp hvac with ⟨h, _⟩; exact h
        have hins : Index.insert s a p
            = (⟨idx, 1⟩,
                { s with
                  entries := s.entries.set idx
                    (some ⟨1, a, p, some Mark.Added, none⟩)
                  free_list := rest }) := by
          unfold Index.insert
          rw [hfl]
          simp [hvacE]
        have h1 : (s.entries.set idx
              (some (⟨1, a, p, some Mark.Added, none⟩ : Entry α P)))[idx]?
            = some (some ⟨1, a, p, some Mark.Added, none⟩) := by
          rw [List.getElem?_set]
          simp [hvacE, hidx]
        have hrem : Index.remove (Index.insert s a p).2 (Index.insert s a p).1
            = s := by
          rw [hins]
          have hback : s.entries.set idx none = s.entries :=
            list_set_of_get? _ _ _ hvac
          simp [Index.remove, Index.entry_at, h1, List.set_set, hback, ← hfl]
        rw [hrem]
        exact ⟨rfl, fun _ _ => rfl, fun _ => rfl⟩
    | nil =>
        have hins : Index.insert s a p
            = (⟨s.entries.length, 1⟩,
                { s with
                  entries := s.entries ++
                    [some ⟨1, a, p, some Mark.Added, none⟩] }) := by
          unfold Index.insert
          rw [hfl]
        have h1 : (s.entries ++
              [some (⟨1, a, p, some Mark.Added, none⟩ : Entry α P)])[s.entries.length]?
            = some (some ⟨1, a, p, some Mark.Added, none⟩) :=
          List.getElem?_concat_length _ _
        have hrem : Index.remove (Index.insert s a p).2 (Index.insert s a p).1
            = { s with
                entries := s.entries ++ [none]
                free_list := s.entries.length :: s.free_list } := by
          rw [hins]
          have hset : (s.entries ++
                [some (⟨1, a, p, some Mark.Added, none⟩ : Entry α P)]).set
                  s.entries.length none
              = s.entries ++ [none] := by
            apply List.ext_get?
            intro j
            rw [List.get?_set]
            by_cases hj : s.entries.length = j
            · subst hj
              simp [List.get?_concat_length]
            · by_cases hjlt : j < s.entries.length
              · rw [if_neg hj, List.get?_append hjlt, List.get?_append hjlt]
              · have h1le : s.entries.length + 1 ≤ j := by omega
                rw [if_neg hj, List.get?_len_le (by simpa using h1le),
                  List.get?_len_le (by simpa using h1le)]
          simp [Index.remove, Index.entry_at, h1, hset]
        rw [hrem]
        have he : ({ s with
            entries := s.entries ++ [none]
            free_list := s.entries.length :: s.free_list } :
              IndexState α P σ).entries = s.entries ++ [none] := rfl
        have hb : ({ s with
            entries := s.entries ++ [none]
            free_list := s.entries.length :: s.free_list } :
              IndexState α P σ).backend = s.backend := rfl
        refine ⟨(commit_entries_append_none B s _ he hb).2.2, ?_, ?_⟩
        · intro x y
          exact query_point_append_none B _ _
            (commit_entries_append_none B s _ he hb).1
            (commit_entries_append_none B s _ he hb).2.1 x y
        · intro rect
          exact query_rect_append_none B _ _
            (commit_entries_append_none B s _ he hb).1
            (commit_entries_append_none B s _ he hb).2.1 rect
  · constructor
    · rfl
    · intro x y
      apply List.filterMap_eq_nil.mpr
      intro i _
      match i with
      | 0 => rfl
      | Nat.succ j =>
          show (match ([none] : List (Option (Entry α P))).get? (j + 1) with
            | some (some e) => some ((⟨j + 1, e.generation⟩ : Key), e.payload)
            | _ => none) = none
          rw [show ([none] : List (Option (Entry α P))).get? (j + 1)
              = none from rfl]

theorem index_insert_remove_invisible_witness :
    (∀ i ∈ (Index.emptyState FlatVec.emptyState :
        IndexState Int Nat (FlatState Int)).free_list,
      (Index.emptyState FlatVec.emptyState :
        IndexState Int Nat (FlatState Int)).entries.get? i = some none)
    ∧ (Index.commit (@FlatVec.ops Int _) (Index.remove
          (Index.insert (Index.emptyState FlatVec.emptyState :
            IndexState Int Nat (FlatState Int)) ⟨0, 0, 10, 10⟩ 1).2
          (Index.insert (Index.emptyState FlatVec.emptyState :
            IndexState Int Nat (FlatState Int)) ⟨0, 0, 10, 10⟩ 1).1)).2
        = Damage.empty
    ∧ Index.query_point (@FlatVec.ops Int _)
        (Index.commit (@FlatVec.ops Int _) (Index.remove
          (Index.insert (Index.emptyState FlatVec.emptyState :
            IndexState Int Nat (FlatState Int)) ⟨0, 0, 10, 10⟩ 1).2
          (Index.insert (Index.emptyState FlatVec.emptyState :
            IndexState Int Nat (FlatState Int)) ⟨0, 0, 10, 10⟩ 1).1)).1
        5 5 = [] :=
  ⟨fun i hi => absurd hi (List.not_mem_nil i),
    (index_insert_remove_before_commit_invisible (@FlatVec.ops Int _)
      (Index.emptyState FlatVec.emptyState) ⟨0, 0, 10, 10⟩ 1
      FlatVec.emptyState
      (fun i hi => absurd hi (List.not_mem_nil i))).2.1,
    (index_insert_remove_before_commit_invisible (@FlatVec.ops Int _)
      (Index.emptyState FlatVec.emptyState) ⟨0, 0, 10, 10⟩ 1
      FlatVec.emptyState
      (fun i hi => absurd hi (List.not_mem_nil i))).2.2 5 5⟩

/-! #### Claim C9: stale handles are no-ops -/

/-- C9: a stale handle (one whose slot is vacant or whose generation does
not match the slot's current occupant) makes `update` and `remove` on the
index, and every `set_*` and `remove` on the box tree, a complete no-op:
the state is unchanged. -/
theorem stale_handles_are_noops {α P σ : Type} [DecidableEq α]
    (s : IndexState α P σ) (k : Key) (aabb : Aabb α)
    (hk : ¬ Index.isLive s k)
    (t : BoxTree.Tree) (id : BoxTree.NodeId)
    (hid : BoxTree.Tree.is_alive t id = false)
    (fuel : Nat) (r : KRect) (tf : KAffine) (clip : Option KRoundedRect)
    (z : Int) (fl : BoxTree.NodeFlags) :
    Index.update s k aabb = s
    ∧ Index.remove s k = s
    ∧ BoxTree.Tree.set_local_bounds t id r = t
    ∧ BoxTree.Tree.set_local_transform t id tf = t
    ∧ BoxTree.Tree.set_local_clip t id clip = t
    ∧ BoxTree.Tree.set_z_index t id z = t
    ∧ BoxTree.Tree.set_flags t id fl = t
    ∧ BoxTree.Tree.removeFuel (fuel + 1) t id = some t := by
  have he : Index.entry_at s k = none := not_not.mp hk
  have hnode : BoxTree.Tree.node_opt t id = none := by
    unfold BoxTree.Tree.node_opt
    unfold BoxTree.Tree.is_alive at hid
    cases hg : t.nodes.get? id.slot with
    | none => rfl
    | some o =>
        cases o with
        | none => rfl
        | some n =>
            rw [hg] at hid
            simp only [decide_eq_false_iff_not] at hid
            simp [hid]
  refine ⟨?_, ?_, ?_, ?_, ?_, ?_, ?_, ?_⟩
  · unfold Index.update; rw [he]
  · unfold Index.remove; rw [he]
  · unfold BoxTree.Tree.set_local_bounds; rw [hnode]
  · unfold BoxTree.Tree.set_local_transform; rw [hnode]
  · unfold BoxTree.Tree.set_local_clip; rw [hnode]
  · unfold BoxTree.Tree.set_z_index; rw [hnode]
  · unfold BoxTree.Tree.set_flags; rw [hnode]
  · unfold BoxTree.Tree.removeFuel; rw [hid]; rfl

theorem stale_handles_are_noops_witness :
    (¬ Index.isLive (Index.emptyState FlatVec.emptyState :
        IndexState Int Nat (FlatState Int)) ⟨0, 1⟩)
    ∧ BoxTree.Tree.is_alive BoxTree.Tree.empty ⟨0, 1⟩ = false
    ∧ Index.update (Index.emptyState FlatVec.emptyState :
        IndexState Int Nat (FlatState Int)) ⟨0, 1⟩ ⟨0, 0, 1, 1⟩
        = Index.emptyState FlatVec.emptyState
    ∧ BoxTree.Tree.set_z_index BoxTree.Tree.empty ⟨0, 1⟩ 3
        = BoxTree.Tree.empty
    ∧ BoxTree.Tree.removeFuel 1 BoxTree.Tree.empty ⟨0, 1⟩
        = some BoxTree.Tree.empty :=
  ⟨by decide, rfl,
    (stale_handles_are_noops (Index.emptyState FlatVec.emptyState :
        IndexState Int Nat (FlatState Int)) ⟨0, 1⟩
      ⟨0, 0, 1, 1⟩ (by decide) BoxTree.Tree.empty ⟨0, 1⟩ rfl 0 KRect.zero
      KAffine.identity none 3 BoxTree.NodeFlags.default).1,
    (stale_handles_are_noops (Index.emptyState FlatVec.emptyState :
        IndexState Int Nat (FlatState Int)) ⟨0, 1⟩
      ⟨0, 0, 1, 1⟩ (by decide) BoxTree.Tree.empty ⟨0, 1⟩ rfl 0 KRect.zero
      KAffine.identity none 3 BoxTree.NodeFlags.default).2.2.2.2.2.2.1,
    (stale_handles_are_noops (Index.emptyState FlatVec.emptyState :
        IndexState Int Nat (FlatState Int)) ⟨0, 1⟩
      ⟨0, 0, 1, 1⟩ (by decide) BoxTree.Tree.empty ⟨0, 1⟩ rfl 0 KRect.zero
      KAffine.identity none 3 BoxTree.NodeFlags.default).2.2.2.2.2.2.2⟩

/-! #### Claim C4: capture override in the router -/

/-- C4: with a pointer capture set, `handle_with_hits` routes to the
captured node regardless of depth ranking: it emits the dispatch sequence
for the path, localizer and meta of the last hit in input order whose node
equals the captured node, reconstructing the path through the parent lookup
when that hit carries no path; when no hit matches, the meta is `none`; the
scope filter does not apply; and without a parent lookup the reconstruction
falls back to the singleton path. -/
theorem router_capture_override {K W M : Type} [DecidableEq K]
    (lookup : K → Option W) (parent : K → Option K) (tie : TieBreakPolicy)
    (scope : Option (K → Bool)) (focus : Option K) (cap : K) (fuel : Nat)
    (hits : List (ResolvedHit K M)) :
    (Router.handle_with_hits (⟨lookup, parent, tie, scope, focus, some cap⟩ :
        Router K W) fuel hits
      = Router.emit_path (⟨lookup, parent, tie, scope, focus, some cap⟩ :
          Router K W)
          (match (hits.filter fun h => h.node = cap).getLast? with
            | some h =>
                match h.path with
                | some p => p
                | none => Router.reconstruct_path parent fuel cap
            | none => Router.reconstruct_path parent fuel cap)
          (match (hits.filter fun h => h.node = cap).getLast? with
            | some h => h.localizer
            | none => Localizer.mk)
          (((hits.filter fun h => h.node = cap).getLast?).map
            ResolvedHit.meta))
    ∧ Router.handle_with_hits (⟨lookup, parent, tie, scope, focus, some cap⟩ :
        Router K W) fuel hits
      = Router.handle_with_hits (⟨lookup, parent, tie, none, focus, some cap⟩ :
          Router K W) fuel hits
    ∧ Router.reconstruct_path (fun _ : K => none) fuel cap = [cap] := by
  have hl := find?_reverse_eq_getLast?_filter hits
    (fun h => decide (h.node = cap))
  refine ⟨?_, ?_, ?_⟩
  · cases hlast : (hits.filter fun h => h.node = cap).getLast? with
    | none =>
        rw [hlast] at hl
        simp [Router.handle_with_hits, hl, hlast]
    | some h =>
        rw [hlast] at hl
        cases hp : h.path with
        | none => simp [Router.handle_with_hits, hl, hlast, hp]
        | some p => simp [Router.handle_with_hits, hl, hlast, hp]
  · cases hfind : hits.reverse.find? (fun h => decide (h.node = cap)) with
    | none =>
        simp only [Router.handle_with_hits, hfind, Router.emit_path,
          Router.make_dispatch]
    | some h =>
        cases hp : h.path with
        | none =>
            simp only [Router.handle_with_hits, hfind, hp, Router.emit_path,
              Router.make_dispatch]
        | some p =>
            simp only [Router.handle_with_hits, hfind, hp, Router.emit_path,
              Router.make_dispatch]
  · cases fuel <;> rfl

/-! #### Claim C10: the claimed blanket infallibility fails; totality holds
on well-formed inputs -/

/-- C10 (counterexample): `handle_with_hits` panics (modelled `none`) on a
hit that carries an explicitly provided empty path (`path.last().unwrap()`
in `emit_path`), and `Tree::insert` panics on a dangling parent id
(`expect("dangling NodeId")` in `node_mut` via `link_parent`). -/
theorem router_empty_path_and_dangling_parent_panic :
    Router.handle_with_hits
        (⟨fun n => some n, fun _ => none, TieBreakPolicy.Newer, none, none,
          none⟩ : Router Nat Nat) 5
        [⟨7, some [], DepthKey.Z 0, Localizer.mk, (0 : Nat)⟩] = none
    ∧ BoxTree.Tree.insert BoxTree.Tree.empty (some ⟨5, 1⟩)
        BoxTree.LocalNode.default = none := by
  constructor
  · rfl
  · rfl

theorem foldl_step_mem {β : Type} (step : Option β → β → Option β)
    (hstep : ∀ acc h, step acc h = acc ∨ step acc h = some h) :
    ∀ (l : List β) (acc : Option β) (b : β),
      l.foldl step acc = some b → acc = some b ∨ b ∈ l := by
  intro l
  induction l with
  | nil => intro acc b h; exact Or.inl h
  | cons x t ih =>
      intro acc b h
      rw [List.foldl_cons] at h
      rcases ih (step acc x) b h with h1 | h1
      · rcases hstep acc x with h2 | h2
        · exact Or.inl (h2 ▸ h1)
        · rw [h2] at h1
          refine Or.inr ?_
          rw [← Option.some_inj.mp h1]
          exact List.mem_cons_self x t
      · exact Or.inr (List.mem_cons_of_mem x h1)

theorem selectBest_mem {K W M : Type} [DecidableEq K] (r : Router K W)
    (hits : List (ResolvedHit K M)) (b : ResolvedHit K M)
    (h : Router.selectBest r hits = some b) : b ∈ hits := by
  unfold Router.selectBest at h
  have := foldl_step_mem _ ?_ hits none b h
  · rcases this with h1 | h1
    · exact absurd h1 (by simp)
    · exact h1
  · intro acc x
    rcases hs : r.scope with _ | f
    · rcases acc with _ | a
      · exact Or.inr rfl
      · dsimp only
        split
        · right; rfl
        · left; rfl
    · rcases acc with _ | a
      · dsimp only
        split
        · left; rfl
        · right; rfl
      · dsimp only
        split
        · left; rfl
        · split
          · right; rfl
          · left; rfl

theorem emit_path_isSome {K W M : Type} [DecidableEq K] (r : Router K W)
    (path : List K) (loc : Localizer) (meta : Option M) (hp : path ≠ []) :
    (Router.emit_path r path loc meta).isSome := by
  unfold Router.emit_path
  cases hl : path.getLast? with
  | none => exact absurd (List.getLast?_eq_none_iff.mp hl) hp
  | some t => rfl

theorem reconstruct_path_ne_nil {K : Type} (parent : K → Option K)
    (fuel : Nat) (target : K) :
    Router.reconstruct_path parent fuel target ≠ [] := by
  unfold Router.reconstruct_path
  cases fuel with
  | zero => simp [Router.ancestorChain]
  | succ n =>
      simp only [Router.ancestorChain]
      cases parent target <;> simp

/-- C10 (amended): the panics above are the only failure points named by
the claim; with well-formed inputs the operations are total.
`handle_with_hits` returns a dispatch sequence for every hit list whose
explicitly provided paths are non-empty, and `Tree::insert` succeeds
whenever the parent argument is absent or live (the internal free list
pointing into the generations vector, as every API-reachable tree does). -/
theorem router_and_insert_total_on_wellformed_inputs {K W M : Type}
    [DecidableEq K] (r : Router K W) (fuel : Nat)
    (hits : List (ResolvedHit K M)) (hp : ∀ h ∈ hits, h.path ≠ some [])
    (t : BoxTree.Tree) (parent : Option BoxTree.NodeId)
    (l : BoxTree.LocalNode)
    (hfree : ∀ i ∈ t.free_list,
      i < t.nodes.length ∧ i < t.generations.length)
    (hpar : parent = none ∨
      ∃ p, parent = some p ∧ BoxTree.Tree.is_alive t p = true) :
    (Router.handle_with_hits r fuel hits).isSome
    ∧ (BoxTree.Tree.insert t parent l).isSome := by
  constructor
  · unfold Router.handle_with_hits
    cases hc : r.capture with
    | some cap =>
        cases hfind : hits.reverse.find? (fun h => decide (h.node = cap)) with
        | none =>
            simp only [hfind]
            exact emit_path_isSome r _ _ _
              (reconstruct_path_ne_nil r.parent fuel cap)
        | some h =>
            have hmem : h ∈ hits := by
              have := List.mem_of_find?_eq_some hfind
              exact List.mem_reverse.mp this
            cases hpath : h.path with
            | none =>
                simp only [hfind, hpath]
                exact emit_path_isSome r _ _ _
                  (reconstruct_path_ne_nil r.parent fuel cap)
            | some p =>
                have hpn : p ≠ [] := by
                  intro hnil
                  exact hp h hmem (by rw [hpath, hnil])
                simp only [hfind, hpath]
                exact emit_path_isSome r _ _ _ hpn
    | none =>
        cases hsel : Router.selectBest r hits with
        | none => simp only [hsel]; rfl
        | some best =>
            have hmem := selectBest_mem r hits best hsel
            cases hpath : best.path with
            | none =>
                simp only [hsel, hpath]
                exact emit_path_isSome r _ _ _
                  (reconstruct_path_ne_nil r.parent fuel best.node)
            | some p =>
                have hpn : p ≠ [] := by
                  intro hnil
                  exact hp best hmem (by rw [hpath, hnil])
                simp only [hsel, hpath]
                exact emit_path_isSome r _ _ _ hpn
  · unfold BoxTree.Tree.insert
    cases hfl : t.free_list with
    | nil =>
        cases hpar with
        | inl hnone => rw [hnone]; rfl
        | inr hsome =>
            rcases hsome with ⟨p, hps, halive⟩
            rw [hps]
            have hex : ∃ n, t.nodes.get? p.slot = some (some n) := by
              unfold BoxTree.Tree.is_alive at halive
              cases hg : t.nodes.get? p.slot with
              | none => rw [hg] at halive; exact absurd halive (by simp)
              | some o =>
                  cases o with
                  | none => rw [hg] at halive; exact absurd halive (by simp)
                  | some n => exact ⟨n, rfl⟩
            rcases hex with ⟨n, hn⟩
            have hlt : p.slot < t.nodes.length := by
              rcases List.get?_eq_some.mp hn with ⟨hh, _⟩; exact hh
            simp only [BoxTree.Tree.link_parent, BoxTree.Tree.nodeOf,
              BoxTree.Tree.setNode]
            rw [show (t.nodes ++
                [some (BoxTree.TNode.new 1 l)]).get? p.slot
              = t.nodes.get? p.slot from List.get?_append hlt]
            rw [hn]
            simp only []
            rw [List.get?_set]
            by_cases hps2 : p.slot = t.nodes.length
            · omega
            · rw [if_neg hps2]
              rw [show (t.nodes ++
                  [some (BoxTree.TNode.new 1 l)]).get? t.nodes.length
                = some (some (BoxTree.TNode.new 1 l)) from
                  List.get?_concat_length _ _]
              rfl
    | cons idx rest =>
        have hmem : idx ∈ t.free_list := by
          rw [hfl]; exact List.mem_cons_self idx rest
        have hidxg : idx < t.generations.length := (hfree idx hmem).2
        have hidxn : idx < t.nodes.length := (hfree idx hmem).1
        have hg : ∃ g, t.generations.get? idx = some g :=
          ⟨t.generations.get ⟨idx, hidxg⟩, List.get?_eq_get hidxg⟩
        rcases hg with ⟨g, hg⟩
        simp only [hg]
        cases hpar with
        | inl hnone => rw [hnone]; rfl
        | inr hsome =>
            rcases hsome with ⟨p, hps, halive⟩
            rw [hps]
            have hex : ∃ n, t.nodes.get? p.slot = some (some n) := by
              unfold BoxTree.Tree.is_alive at halive
              cases hgg : t.nodes.get? p.slot with
              | none => rw [hgg] at halive; exact absurd halive (by simp)
              | some o =>
                  cases o with
                  | none => rw [hgg] at halive; exact absurd halive (by simp)
                  | some n => exact ⟨n, rfl⟩
            rcases hex with ⟨n, hn⟩
            have ho : ∃ o, t.nodes.get? idx = some o :=
              ⟨t.nodes.get ⟨idx, hidxn⟩, List.get?_eq_get hidxn⟩
            rcases ho with ⟨o, ho⟩
            simp only [BoxTree.Tree.link_parent, BoxTree.Tree.nodeOf,
              BoxTree.Tree.setNode]
            rw [List.get?_set]
            by_cases hps2 : idx = p.slot
            · rw [if_pos hps2, hn]
              simp only [Option.map_some]
              rw [List.get?_set]
              by_cases hps3 : p.slot = idx
              · rw [if_pos hps3, List.get?_set, if_pos rfl, hps3, ho]
                rfl
              · exact absurd hps2.symm hps3
            · rw [if_neg hps2, hn]
              simp only []
              rw [List.get?_set]
              by_cases hps3 : p.slot = idx
              · exact absurd hps3.symm hps2
              · rw [if_neg hps3]
                rw [List.get?_set, if_pos rfl, ho]
                rfl

/-- C10 witness: the totality theorem instantiated at a concrete router, a
hit list whose provided path is non-empty, and an empty tree with absent
parent. -/
theorem router_and_insert_total_witness :
    (Router.handle_with_hits
        (⟨fun n => some n, fun _ => none, TieBreakPolicy.Newer, none, none,
          none⟩ : Router Nat Nat) 5
        [⟨7, some [7], DepthKey.Z 0, Localizer.mk, (0 : Nat)⟩]).isSome
    ∧ (BoxTree.Tree.insert BoxTree.Tree.empty none
        BoxTree.LocalNode.default).isSome :=
  router_and_insert_total_on_wellformed_inputs
    (⟨fun n => some n, fun _ => none, TieBreakPolicy.Newer, none, none,
      none⟩ : Router Nat Nat) 5
    [⟨7, some [7], DepthKey.Z 0, Localizer.mk, (0 : Nat)⟩]
    (by intro h hh; cases List.mem_singleton.mp hh; decide)
    BoxTree.Tree.empty none BoxTree.LocalNode.default
    (by intro i hi; exact absurd hi (List.not_mem_nil i))
    (Or.inl rfl)

/-! #### Claim C3: hit_test_point picks the topmost surviving candidate -/

theorem hitPriorityLt_irrefl (z : Int) (a : BoxTree.NodeId) :
    ¬ hitPriorityLt z a z a := by
  intro h
  rcases h with h | ⟨_, h⟩
  · exact lt_irrefl z h
  · simp only [BoxTree.Tree.id_is_newer, Bool.or_eq_true, Bool.and_eq_true,
      decide_eq_true_eq] at h
    omega

theorem hitPriorityLt_trans {za zb zc : Int} {a b c : BoxTree.NodeId}
    (h1 : hitPriorityLt za a zb b) (h2 : hitPriorityLt zb b zc c) :
    hitPriorityLt za a zc c := by
  rcases h1 with h1 | ⟨hz1, hn1⟩ <;> rcases h2 with h2 | ⟨hz2, hn2⟩
  · exact Or.inl (lt_trans h1 h2)
  · exact Or.inl (by omega)
  · exact Or.inl (by omega)
  · refine Or.inr ⟨by omega, ?_⟩
    simp only [BoxTree.Tree.id_is_newer, Bool.or_eq_true, Bool.and_eq_true,
      decide_eq_true_eq] at hn1 hn2 ⊢
    omega

theorem hitStep_cases (t : BoxTree.Tree) (pt : KPoint)
    (f : BoxTree.QueryFilter) (acc : Option (BoxTree.NodeId × Int))
    (x : BoxTree.NodeId) :
    BoxTree.Tree.hitStep t pt f acc x = acc
    ∨ ∃ zx, BoxTree.Tree.survives t pt f x = some zx
        ∧ BoxTree.Tree.hitStep t pt f acc x = some (x, zx) := by
  unfold BoxTree.Tree.hitStep
  cases hs : BoxTree.Tree.survives t pt f x with
  | none => exact Or.inl rfl
  | some z =>
      cases acc with
      | none => exact Or.inr ⟨z, rfl, rfl⟩
      | some p =>
          obtain ⟨best_id, z_best⟩ := p
          by_cases hc : z > z_best
            ∨ (z = z_best ∧ BoxTree.Tree.id_is_newer x best_id = true)
          · refine Or.inr ⟨z, rfl, ?_⟩
            show (if z > z_best
                ∨ (z = z_best ∧ BoxTree.Tree.id_is_newer x best_id = true)
                then some (x, z) else some (best_id, z_best)) = some (x, z)
            rw [if_pos hc]
          · refine Or.inl ?_
            show (if z > z_best
                ∨ (z = z_best ∧ BoxTree.Tree.id_is_newer x best_id = true)
                then some (x, z) else some (best_id, z_best))
              = some (best_id, z_best)
            rw [if_neg hc]

theorem hitStep_none (t : BoxTree.Tree) (pt : KPoint)
    (f : BoxTree.QueryFilter) (acc : Option (BoxTree.NodeId × Int))
    (x : BoxTree.NodeId)
    (h : BoxTree.Tree.hitStep t pt f acc x = none) :
    acc = none ∧ BoxTree.Tree.survives t pt f x = none := by
  unfold BoxTree.Tree.hitStep at h
  cases hs : BoxTree.Tree.survives t pt f x with
  | none => rw [hs] at h; exact ⟨h, rfl⟩
  | some z =>
      rw [hs] at h
      cases acc with
      | none => exact Option.noConfusion h
      | some p =>
          obtain ⟨best_id, z_best⟩ := p
          have h1 : (if z > z_best
              ∨ (z = z_best ∧ BoxTree.Tree.id_is_newer x best_id = true)
              then some (x, z) else some (best_id, z_best))
              = (none : Option (BoxTree.NodeId × Int)) := h
          by_cases hc : z > z_best
            ∨ (z = z_best ∧ BoxTree.Tree.id_is_newer x best_id = true)
          · rw [if_pos hc] at h1; exact Option.noConfusion h1
          · rw [if_neg hc] at h1; exact Option.noConfusion h1

theorem hitStep_mono (t : BoxTree.Tree) (pt : KPoint)
    (f : BoxTree.QueryFilter) (p : BoxTree.NodeId × Int)
    (x : BoxTree.NodeId) :
    ∃ q, BoxTree.Tree.hitStep t pt f (some p) x = some q
      ∧ (p = q ∨ hitPriorityLt p.2 p.1 q.2 q.1) := by
  unfold BoxTree.Tree.hitStep
  cases hs : BoxTree.Tree.survives t pt f x with
  | none => exact ⟨p, rfl, Or.inl rfl⟩
  | some z =>
      obtain ⟨best_id, z_best⟩ := p
      by_cases hc : z > z_best
        ∨ (z = z_best ∧ BoxTree.Tree.id_is_newer x best_id = true)
      · refine ⟨(x, z), ?_, Or.inr ?_⟩
        · show (if z > z_best
              ∨ (z = z_best ∧ BoxTree.Tree.id_is_newer x best_id = true)
              then some (x, z) else some (best_id, z_best)) = some (x, z)
          rw [if_pos hc]
        · rcases hc with h | ⟨h1, h2⟩
          · exact Or.inl h
          · exact Or.inr ⟨h1.symm, h2⟩
      · refine ⟨(best_id, z_best), ?_, Or.inl rfl⟩
        show (if z > z_best
            ∨ (z = z_best ∧ BoxTree.Tree.id_is_newer x best_id = true)
            then some (x, z) else some (best_id, z_best))
          = some (best_id, z_best)
        rw [if_neg hc]

theorem hitStep_dom (t : BoxTree.Tree) (pt : KPoint)
    (f : BoxTree.QueryFilter) (acc : Option (BoxTree.NodeId × Int))
    (x : BoxTree.NodeId) (zx : Int)
    (hs : BoxTree.Tree.survives t pt f x = some zx) :
    ∃ q, BoxTree.Tree.hitStep t pt f acc x = some q
      ∧ ¬ hitPriorityLt q.2 q.1 zx x := by
  unfold BoxTree.Tree.hitStep
  rw [hs]
  cases acc with
  | none => exact ⟨(x, zx), rfl, hitPriorityLt_irrefl zx x⟩
  | some p =>
      obtain ⟨best_id, z_best⟩ := p
      by_cases hc : zx > z_best
        ∨ (zx = z_best ∧ BoxTree.Tree.id_is_newer x best_id = true)
      · refine ⟨(x, zx), ?_, hitPriorityLt_irrefl zx x⟩
        show (if zx > z_best
            ∨ (zx = z_best ∧ BoxTree.Tree.id_is_newer x best_id = true)
            then some (x, zx) else some (best_id, z_best)) = some (x, zx)
        rw [if_pos hc]
      · refine ⟨(best_id, z_best), ?_, ?_⟩
        · show (if zx > z_best
              ∨ (zx = z_best ∧ BoxTree.Tree.id_is_newer x best_id = true)
              then some (x, zx) else some (best_id, z_best))
            = some (best_id, z_best)
          rw [if_neg hc]
        · intro hlt
          apply hc
          rcases hlt with h | ⟨h1, h2⟩
          · exact Or.inl h
          · exact Or.inr ⟨h1.symm, h2⟩

theorem hitFold_none (t : BoxTree.Tree) (pt : KPoint)
    (f : BoxTree.QueryFilter) :
    ∀ (l : List BoxTree.NodeId) (acc : Option (BoxTree.NodeId × Int)),
      l.foldl (BoxTree.Tree.hitStep t pt f) acc = none →
      acc = none ∧ ∀ c ∈ l, BoxTree.Tree.survives t pt f c = none := by
  intro l
  induction l with
  | nil =>
      intro acc h
      exact ⟨h, fun c hc => absurd hc (List.not_mem_nil c)⟩
  | cons y rest ih =>
      intro acc h
      rw [List.foldl_cons] at h
      obtain ⟨h1, h2⟩ := ih _ h
      obtain ⟨h3, h4⟩ := hitStep_none t pt f acc y h1
      refine ⟨h3, ?_⟩
      intro c hc
      rcases List.mem_cons.mp hc with rfl | hc
      · exact h4
      · exact h2 c hc

theorem hitFold_good (t : BoxTree.Tree) (pt : KPoint)
    (f : BoxTree.QueryFilter) :
    ∀ (l : List BoxTree.NodeId) (acc : Option (BoxTree.NodeId × Int))
      (id : BoxTree.NodeId) (z : Int),
      l.foldl (BoxTree.Tree.hitStep t pt f) acc = some (id, z) →
      acc = some (id, z)
      ∨ (id ∈ l ∧ BoxTree.Tree.survives t pt f id = some z) := by
  intro l
  induction l with
  | nil => intro acc id z h; exact Or.inl h
  | cons y rest ih =>
      intro acc id z h
      rw [List.foldl_cons] at h
      rcases ih _ id z h with h1 | ⟨h1, h2⟩
      · rcases hitStep_cases t pt f acc y with h2 | ⟨zy, hzy, h3⟩
        · exact Or.inl (h2 ▸ h1)
        · rw [h3] at h1
          obtain ⟨rfl, rfl⟩ := Prod.mk.injEq .. ▸ Option.some_inj.mp h1
          exact Or.inr ⟨List.mem_cons_self y rest, hzy⟩
      · exact Or.inr ⟨List.mem_cons_of_mem y h1, h2⟩

theorem hitFold_mono (t : BoxTree.Tree) (pt : KPoint)
    (f : BoxTree.QueryFilter) :
    ∀ (l : List BoxTree.NodeId) (p : BoxTree.NodeId × Int),
      ∃ q, l.foldl (BoxTree.Tree.hitStep t pt f) (some p) = some q
        ∧ (p = q ∨ hitPriorityLt p.2 p.1 q.2 q.1) := by
  intro l
  induction l with
  | nil => intro p; exact ⟨p, rfl, Or.inl rfl⟩
  | cons y rest ih =>
      intro p
      obtain ⟨q0, hq0, hle0⟩ := hitStep_mono t pt f p y
      obtain ⟨q, hq, hle⟩ := ih q0
      refine ⟨q, ?_, ?_⟩
      · rw [List.foldl_cons, hq0]; exact hq
      · rcases hle0 with rfl | h0 <;> rcases hle with rfl | h1
        · exact Or.inl rfl
        · exact Or.inr h1
        · exact Or.inr h0
        · exact Or.inr (hitPriorityLt_trans h0 h1)

theorem hitFold_max (t : BoxTree.Tree) (pt : KPoint)
    (f : BoxTree.QueryFilter) :
    ∀ (l : List BoxTree.NodeId) (acc : Option (BoxTree.NodeId × Int))
      (x : BoxTree.NodeId) (zx : Int), x ∈ l →
      BoxTree.Tree.survives t pt f x = some zx →
      ∃ q, l.foldl (BoxTree.Tree.hitStep t pt f) acc = some q
        ∧ ¬ hitPriorityLt q.2 q.1 zx x := by
  intro l
  induction l with
  | nil => intro acc x zx hmem _; exact absurd hmem (List.not_mem_nil x)
  | cons y rest ih =>
      intro acc x zx hmem hs
      rw [List.foldl_cons]
      rcases List.mem_cons.mp hmem with rfl | hmem'
      · obtain ⟨q0, hq0, hdom⟩ := hitStep_dom t pt f acc x zx hs
        rw [hq0]
        obtain ⟨q, hq, hle⟩ := hitFold_mono t pt f rest q0
        refine ⟨q, hq, ?_⟩
        rcases hle with rfl | hlt
        · exact hdom
        · intro hbad
          exact hdom (hitPriorityLt_trans hlt hbad)
      · exact ih _ x zx hmem' hs

/-- C3: `hit_test_point` returns the topmost surviving candidate.  Whenever
it completes (the `path_to_root` walk has fuel), a `none` hit means no index
candidate passes the filter and clip checks, and a `some` hit names a
surviving candidate whose `z_index` no surviving candidate strictly exceeds
and which no equal-`z` surviving candidate beats under the newer-id
tie-break (higher generation, then higher slot), paired with its
root-to-node path; hence after an equal-`z` sibling is removed and its slot
reused at an incremented generation, the replacement wins (the witness
replays that scenario). -/
theorem hit_test_point_selects_topmost (fuel : Nat) (t : BoxTree.Tree)
    (pt : KPoint) (f : BoxTree.QueryFilter) (res : Option BoxTree.Hit)
    (h : BoxTree.Tree.hit_test_point fuel t pt f = some res) :
    hitIsTopmost fuel t pt f res := by
  unfold BoxTree.Tree.hit_test_point at h
  cases hbest : (BoxTree.Tree.hitCandidates t pt).foldl
      (BoxTree.Tree.hitStep t pt f) none with
  | none =>
      rw [hbest] at h
      obtain rfl : (none : Option BoxTree.Hit) = res := Option.some_inj.mp h
      intro c hc
      exact (hitFold_none t pt f _ none hbest).2 c hc
  | some p =>
      obtain ⟨id, z⟩ := p
      rw [hbest] at h
      have h2 : (match BoxTree.Tree.path_to_root fuel t id with
          | none => none
          | some p => some (some (⟨id, p⟩ : BoxTree.Hit))) = some res := h
      cases hpath : BoxTree.Tree.path_to_root fuel t id with
      | none => rw [hpath] at h2; exact Option.noConfusion h2
      | some pth =>
          rw [hpath] at h2
          obtain rfl : some (⟨id, pth⟩ : BoxTree.Hit) = res :=
            Option.some_inj.mp h2
          refine ⟨?_, ?_, z, ?_, ?_⟩
          · rcases hitFold_good t pt f _ none id z hbest with h1 | ⟨h1, _⟩
            · exact absurd h1 (by simp)
            · exact h1
          · exact hpath
          · rcases hitFold_good t pt f _ none id z hbest with h1 | ⟨_, h2⟩
            · exact absurd h1 (by simp)
            · exact h2
          · intro c hc zc hzc hlt
            obtain ⟨q, hq, hnb⟩ := hitFold_max t pt f _ none c zc hc hzc
            rw [hbest] at hq
            obtain rfl : q = (id, z) := (Option.some_inj.mp hq).symm
            exact hnb hlt

/-- C3 witness: on the replacement scenario of `demoTree` the hit test
returns the reinserted node (slot 1, generation 2), and the theorem applies:
that node is a surviving candidate no survivor beats. -/
theorem hit_test_point_selects_topmost_witness :
    BoxTree.Tree.hit_test_point 9 demoTree ⟨5, 5⟩ ⟨false, false⟩
      = some (some ⟨⟨1, 2⟩, [⟨1, 2⟩]⟩)
    ∧ hitIsTopmost 9 demoTree ⟨5, 5⟩ ⟨false, false⟩
        (some ⟨⟨1, 2⟩, [⟨1, 2⟩]⟩) :=
  ⟨by decide,
    hit_test_point_selects_topmost 9 demoTree ⟨5, 5⟩ ⟨false, false⟩
      (some ⟨⟨1, 2⟩, [⟨1, 2⟩]⟩) (by decide)⟩

/-! #### Claim C8: commit is idempotent on committed ("nothing dirty")
states -/

theorem tnode_world_eta (n : BoxTree.TNode) (w : BoxTree.WorldNode)
    (h : n.world = w) : ({ n with world := w } : BoxTree.TNode) = n := by
  cases n
  cases h
  rfl

theorem entry_unmark_eta (e : Entry Rat BoxTree.NodeId)
    (h : e.mark = none) : ({ e with mark := none } : Entry Rat BoxTree.NodeId) = e := by
  cases e
  cases h
  rfl

theorem markedUpd_refl (s : IndexState Rat BoxTree.NodeId (FlatState Rat)) :
    MarkedUpd s s :=
  ⟨rfl, rfl, rfl, fun _ => Or.inl rfl⟩

theorem entry_at_of_get {α P σ : Type} (s : IndexState α P σ) (k : Key)
    (e : Entry α P) (hg : s.entries.get? k.slot = some (some e))
    (hgen : e.generation = k.generation) :
    Index.entry_at s k = some e := by
  unfold Index.entry_at
  rw [hg]
  show (if e.generation = k.generation then some e else none) = some e
  exact if_pos hgen

theorem markedUpd_entry_at (s0 s1 : IndexState Rat BoxTree.NodeId
      (FlatState Rat)) (hc : CleanIndex s0) (hm : MarkedUpd s0 s1) (k : Key)
    (e1 : Entry Rat BoxTree.NodeId)
    (h : Index.entry_at s1 k = some e1) :
    (Index.entry_at s0 k = some e1
      ∧ e1.mark = none ∧ e1.prev_aabb = none)
    ∨ ∃ e, Index.entry_at s0 k = some e ∧ e.mark = none
        ∧ e.prev_aabb = none
        ∧ e1 = { e with
            mark := some Mark.Updated, prev_aabb := some e.aabb } := by
  rcases hm with ⟨_, _, _, hp⟩
  unfold Index.entry_at at h
  rcases hp k.slot with hsame | ⟨e, he0, hmk, hpv, he1⟩
  · rw [hsame] at h
    cases hg : s0.entries.get? k.slot with
    | none => rw [hg] at h; exact Option.noConfusion h
    | some o =>
        rw [hg] at h
        cases o with
        | none => exact Option.noConfusion h
        | some e =>
            have h2 : (if e.generation = k.generation then some e
                else none) = some e1 := h
            by_cases hgen : e.generation = k.generation
            · rw [if_pos hgen] at h2
              obtain rfl := Option.some_inj.mp h2
              obtain ⟨hmk, hpv, _⟩ := hc k.slot e hg
              exact Or.inl ⟨entry_at_of_get s0 k e hg hgen, hmk, hpv⟩
            · rw [if_neg hgen] at h2; exact Option.noConfusion h2
  · rw [he1] at h
    have h2 : (if e.generation = k.generation
        then some ({ e with
          mark := some Mark.Updated, prev_aabb := some e.aabb }
            : Entry Rat BoxTree.NodeId)
        else none) = some e1 := h
    by_cases hgen : e.generation = k.generation
    · rw [if_pos hgen] at h2
      obtain rfl := (Option.some_inj.mp h2).symm
      exact Or.inr ⟨e, entry_at_of_get s0 k e he0 hgen, hmk, hpv, rfl⟩
    · rw [if_neg hgen] at h2; exact Option.noConfusion h2

theorem entry_at_get {α P σ : Type} (s : IndexState α P σ) (k : Key)
    (e : Entry α P) (h : Index.entry_at s k = some e) :
    s.entries.get? k.slot = some (some e)
    ∧ e.generation = k.generation := by
  unfold Index.entry_at at h
  cases hg : s.entries.get? k.slot with
  | none => rw [hg] at h; exact Option.noConfusion h
  | some o =>
      rw [hg] at h
      cases o with
      | none => exact Option.noConfusion h
      | some e2 =>
          have h2 : (if e2.generation = k.generation then some e2
              else none) = some e := h
          by_cases hgen : e2.generation = k.generation
          · rw [if_pos hgen] at h2
            obtain rfl := Option.some_inj.mp h2
            exact ⟨rfl, hgen⟩
          · rw [if_neg hgen] at h2; exact Option.noConfusion h2

theorem index_update_eq {α P σ : Type} [DecidableEq α]
    (s : IndexState α P σ) (k : Key) (aabb : Aabb α) (e : Entry α P)
    (he : Index.entry_at s k = some e) :
    Index.update s k aabb = { s with
      entries := s.entries.set k.slot (some { e with
        prev_aabb := if e.mark = none then some e.aabb else e.prev_aabb
        aabb := aabb
        mark := some (match e.mark with
          | some Mark.Added => Mark.Added
          | _ => Mark.Updated) }) } := by
  unfold Index.update
  rw [he]

theorem markedUpd_update (s0 s1 : IndexState Rat BoxTree.NodeId
      (FlatState Rat)) (hc : CleanIndex s0) (hm : MarkedUpd s0 s1) (k : Key)
    (aabb : Aabb Rat)
    (haabb : ∀ e, Index.entry_at s0 k = some e → e.aabb = aabb) :
    MarkedUpd s0 (Index.update s1 k aabb) := by
  cases he1 : Index.entry_at s1 k with
  | none =>
      unfold Index.update
      rw [he1]
      exact hm
  | some e1 =>
      rcases markedUpd_entry_at s0 s1 hc hm k e1 he1 with
        ⟨he0, hmk, hpv⟩ | ⟨e, he0, hmk, hpv, hee⟩
      · rw [index_update_eq s1 k aabb e1 he1]
        have haq : e1.aabb = aabb := haabb e1 he0
        have hent : ({ e1 with
            prev_aabb := if e1.mark = none then some e1.aabb
              else e1.prev_aabb
            aabb := aabb
            mark := some (match e1.mark with
              | some Mark.Added => Mark.Added
              | _ => Mark.Updated) } : Entry Rat BoxTree.NodeId)
            = { e1 with
              mark := some Mark.Updated, prev_aabb := some e1.aabb } := by
          rw [hmk, haq]
          rfl
        rw [hent]
        rcases hm with ⟨hb, hf, hl, hp⟩
        refine ⟨hb, hf, by simpa using hl, ?_⟩
        intro i
        by_cases hi : k.slot = i
        · subst hi
          refine Or.inr ⟨e1, (entry_at_get s0 k e1 he0).1, hmk, hpv, ?_⟩
          rw [List.get?_set, if_pos rfl, (entry_at_get s1 k e1 he1).1]
          rfl
        · rcases hp i with h | ⟨e2, h1, h2, h3, h4⟩
          · refine Or.inl ?_
            rw [List.get?_set, if_neg hi]
            exact h
          · refine Or.inr ⟨e2, h1, h2, h3, ?_⟩
            rw [List.get?_set, if_neg hi]
            exact h4
      · rw [index_update_eq s1 k aabb e1 he1]
        have haq : e.aabb = aabb := haabb e he0
        have hent : ({ e1 with
            prev_aabb := if e1.mark = none then some e1.aabb
              else e1.prev_aabb
            aabb := aabb
            mark := some (match e1.mark with
              | some Mark.Added => Mark.Added
              | _ => Mark.Updated) } : Entry Rat BoxTree.NodeId)
            = e1 := by
          subst hee
          rw [← haq]
          rfl
        rw [hent,
          list_set_of_get? s1.entries k.slot (some e1)
            (entry_at_get s1 k e1 he1).1]
        exact hm

theorem entry_remark_eta (e : Entry Rat BoxTree.NodeId)
    (hmk : e.mark = none) (hpv : e.prev_aabb = none) :
    ({ { e with mark := some Mark.Updated, prev_aabb := some e.aabb } with
      mark := none, prev_aabb := none } : Entry Rat BoxTree.NodeId) = e := by
  cases e
  cases hmk
  cases hpv
  rfl

theorem commitStep_unmarked (mid : IndexState Rat BoxTree.NodeId
      (FlatState Rat)) (n : Nat) (e : Entry Rat BoxTree.NodeId)
    (d : Damage Rat) (hme : mid.entries.get? n = some (some e))
    (hmk : e.mark = none) :
    Index.commitStep FlatVec.ops (mid, d) n = (mid, d) := by
  obtain ⟨g, ab, pl, mk, pv⟩ := e
  cases hmk
  unfold Index.commitStep
  dsimp only
  rw [hme]
  dsimp only
  rw [list_set_of_get? mid.entries n
    (some ⟨g, ab, pl, none, pv⟩) hme]

theorem commitStep_vacant (mid : IndexState Rat BoxTree.NodeId
      (FlatState Rat)) (n : Nat) (d : Damage Rat)
    (hme : mid.entries.get? n = none ∨ mid.entries.get? n = some none) :
    Index.commitStep FlatVec.ops (mid, d) n = (mid, d) := by
  unfold Index.commitStep
  dsimp only
  rcases hme with hme | hme <;> rw [hme]

theorem commitStep_remarked (mid : IndexState Rat BoxTree.NodeId
      (FlatState Rat)) (n : Nat) (e : Entry Rat BoxTree.NodeId)
    (d : Damage Rat)
    (hme : mid.entries.get? n = some (some { e with
      mark := some Mark.Updated, prev_aabb := some e.aabb }))
    (hback : mid.backend.get? n = some (some e.aabb)
      ∨ mid.backend.length ≤ n)
    (hmk : e.mark = none) (hpv : e.prev_aabb = none) :
    Index.commitStep FlatVec.ops (mid, d) n
      = ({ mid with entries := mid.entries.set n (some e) }, d) := by
  obtain ⟨g, ab, pl, mk, pv⟩ := e
  cases hmk
  cases hpv
  unfold Index.commitStep
  dsimp only
  rw [hme]
  dsimp only
  rw [if_neg (not_not_intro rfl)]
  show ({ mid with
      entries := mid.entries.set n (some ⟨g, ab, pl, none, none⟩)
      backend := FlatVec.update mid.backend n ab }, d)
    = ({ mid with
      entries := mid.entries.set n (some ⟨g, ab, pl, none, none⟩) }, d)
  unfold FlatVec.update
  rcases hback with hb | hb
  · rw [list_set_of_get? mid.backend n (some ab) hb]
  · rw [List.set_eq_of_length_le hb]

theorem commit_unmarks (s0 s1 : IndexState Rat BoxTree.NodeId
      (FlatState Rat)) (hc : CleanIndex s0) (hm : MarkedUpd s0 s1) :
    Index.commit FlatVec.ops s1 = (s0, Damage.empty) := by
  obtain ⟨hb, hf, hl, hp⟩ := hm
  have aux : ∀ n : Nat, ∃ mid : IndexState Rat BoxTree.NodeId
      (FlatState Rat),
      (List.range n).foldl (Index.commitStep FlatVec.ops)
          (s1, Damage.empty) = (mid, Damage.empty)
        ∧ mid.backend = s0.backend ∧ mid.free_list = s0.free_list
        ∧ mid.entries.length = s0.entries.length
        ∧ (∀ i, i < n → mid.entries.get? i = s0.entries.get? i)
        ∧ (∀ i, n ≤ i → mid.entries.get? i = s1.entries.get? i) := by
    intro n
    induction n with
    | zero =>
        exact ⟨s1, rfl, hb, hf, hl, fun i hi => absurd hi (Nat.not_lt_zero i),
          fun i _ => rfl⟩
    | succ n ih =>
        obtain ⟨mid, hfold, hbm, hfm, hlm, hlo, hhi⟩ := ih
        rw [List.range_succ, List.foldl_append, hfold]
        have hmidn : mid.entries.get? n = s1.entries.get? n :=
          hhi n le_rfl
        rcases hp n with hsame | ⟨e, he0, hmk, hpv, he1⟩
        · cases hg : s0.entries.get? n with
          | none =>
              have hv : mid.entries.get? n = none := by
                rw [hmidn, hsame, hg]
              refine ⟨mid, ?_, hbm, hfm, hlm, ?_, ?_⟩
              · show Index.commitStep FlatVec.ops (mid, Damage.empty) n
                  = (mid, Damage.empty)
                exact commitStep_vacant mid n Damage.empty (Or.inl hv)
              · intro i hi
                rcases Nat.lt_succ_iff_lt_or_eq.mp hi with hi | rfl
                · exact hlo i hi
                · rw [hv, hg]
              · intro i hi
                exact hhi i (Nat.le_of_succ_le hi)
          | some o =>
              cases o with
              | none =>
                  have hv : mid.entries.get? n = some none := by
                    rw [hmidn, hsame, hg]
                  refine ⟨mid, ?_, hbm, hfm, hlm, ?_, ?_⟩
                  · exact commitStep_vacant mid n Damage.empty (Or.inr hv)
                  · intro i hi
                    rcases Nat.lt_succ_iff_lt_or_eq.mp hi with hi | rfl
                    · exact hlo i hi
                    · rw [hv, hg]
                  · intro i hi
                    exact hhi i (Nat.le_of_succ_le hi)
              | some e =>
                  obtain ⟨hmk, _, _⟩ := hc n e hg
                  have hv : mid.entries.get? n = some (some e) := by
                    rw [hmidn, hsame, hg]
                  refine ⟨mid, ?_, hbm, hfm, hlm, ?_, ?_⟩
                  · exact commitStep_unmarked mid n e Damage.empty hv hmk
                  · intro i hi
                    rcases Nat.lt_succ_iff_lt_or_eq.mp hi with hi | rfl
                    · exact hlo i hi
                    · rw [hv, hg]
                  · intro i hi
                    exact hhi i (Nat.le_of_succ_le hi)
        · obtain ⟨_, _, hbk⟩ := hc n e he0
          have hv : mid.entries.get? n
              = some (some { e with
                mark := some Mark.Updated, prev_aabb := some e.aabb }) := by
            rw [hmidn, he1]
          have hbk2 : mid.backend.get? n = some (some e.aabb)
              ∨ mid.backend.length ≤ n := by
            rw [hbm]; exact hbk
          refine ⟨{ mid with entries := mid.entries.set n (some e) }, ?_,
            hbm, hfm, by simpa using hlm, ?_, ?_⟩
          · exact commitStep_remarked mid n e Damage.empty hv hbk2 hmk hpv
          · intro i hi
            show (mid.entries.set n (some e)).get? i = s0.entries.get? i
            rw [List.get?_set]
            by_cases h2 : n = i
            · rw [if_pos h2, ← h2, hv, he0]
              rfl
            · rw [if_neg h2]
              exact hlo i (by omega)
          · intro i hi
            show (mid.entries.set n (some e)).get? i = s1.entries.get? i
            rw [List.get?_set, if_neg (by omega : ¬ n = i)]
            exact hhi i (by omega)
  obtain ⟨mid, hfold, hbm, hfm, hlm, hlo, hhi⟩ := aux s1.entries.length
  have hent : mid.entries = s0.entries := by
    apply List.ext_get?
    intro i
    by_cases hi : i < s1.entries.length
    · exact hlo i hi
    · push_neg at hi
      rw [hhi i hi, List.get?_len_le hi,
        List.get?_len_le (hl ▸ hi)]
  have hmid : mid = s0 := by
    rcases mid with ⟨me, mf, mb⟩
    dsimp only at hent hbm hfm
    rw [hent, hbm, hfm]
  unfold Index.commit
  rw [hfold, hmid]

theorem childFold_clean (fuel : Nat) (wt : KAffine) (wclip : Option KRect)
    (s0 : IndexState Rat BoxTree.NodeId (FlatState Rat))
    (v : BoxTree.Tree)
    (IH : ∀ (u : BoxTree.Tree) (id : BoxTree.NodeId),
      MarkedUpd s0 u.index → WorldOK fuel u.nodes id wt wclip s0 →
      ∃ s', BoxTree.Tree.updateWorldRec fuel u id wt wclip
          = some ({ u with index := s' }, [])
        ∧ MarkedUpd s0 s') :
    ∀ (cs : List BoxTree.NodeId),
      (∀ c ∈ cs, WorldOK fuel v.nodes c wt wclip s0) →
      ∀ (s1 : IndexState Rat BoxTree.NodeId (FlatState Rat))
        (dmg0 : List KRect), MarkedUpd s0 s1 →
      ∃ s', cs.foldl
          (fun acc c =>
            match acc with
            | none => none
            | some (u, dmg) =>
                match BoxTree.Tree.updateWorldRec fuel u c wt wclip with
                | none => none
                | some (u1, d1) => some (u1, dmg ++ d1))
          (some ({ v with index := s1 }, dmg0))
        = some (({ v with index := s' } : BoxTree.Tree), dmg0)
        ∧ MarkedUpd s0 s' := by
  intro cs
  induction cs with
  | nil => intro _ s1 dmg0 hm1; exact ⟨s1, rfl, hm1⟩
  | cons c cs ihl =>
      intro hcs s1 dmg0 hm1
      obtain ⟨s2, heq, hm2⟩ :=
        IH { v with index := s1 } c hm1 (hcs c (List.mem_cons_self c cs))
      rw [List.foldl_cons]
      dsimp only
      rw [heq]
      dsimp only
      rw [List.append_nil]
      exact ihl (fun d hd => hcs d (List.mem_cons_of_mem c hd)) s2 dmg0 hm2

theorem updateWorld_clean (fuel : Nat) :
    ∀ (v : BoxTree.Tree) (id : BoxTree.NodeId) (ptf : KAffine)
      (pclip : Option KRect)
      (s0 : IndexState Rat BoxTree.NodeId (FlatState Rat)),
      CleanIndex s0 → MarkedUpd s0 v.index →
      WorldOK fuel v.nodes id ptf pclip s0 →
      ∃ s', BoxTree.Tree.updateWorldRec fuel v id ptf pclip
          = some ({ v with index := s' }, [])
        ∧ MarkedUpd s0 s' := by
  induction fuel with
  | zero => intro v id ptf pclip s0 _ _ hw; exact hw.elim
  | succ fuel ih =>
      intro v id ptf pclip s0 hc hm hw
      obtain ⟨n, hn, hwld, ⟨k, hk, hke⟩, hch⟩ := hw
      have hnodeOf : BoxTree.Tree.nodeOf v id = some n := by
        unfold BoxTree.Tree.nodeOf
        rw [hn]
      simp only [BoxTree.Tree.updateWorldRec]
      rw [hnodeOf]
      dsimp only
      rw [hwld]
      dsimp only
      have hset : BoxTree.Tree.setNode v id.slot (some n) = v := by
        unfold BoxTree.Tree.setNode
        rw [list_set_of_get? v.nodes id.slot (some n) hn]
      rw [tnode_world_eta n _ hwld, hset, hk]
      dsimp only
      rw [if_neg (not_not_intro rfl)]
      have hmup := markedUpd_update s0 v.index hc hm k _ hke
      obtain ⟨s', hfold, hm'⟩ :=
        childFold_clean fuel _ _ s0 v
          (fun u idc hmu hwu => ih u idc _ _ s0 hc hmu hwu)
          n.children hch _ [] hmup
      exact ⟨s', hfold, hm'⟩

/-- C8: commit is idempotent on unchanged input.  On a tree whose world
data is up to date and whose index is committed — the state any successful
commit leaves behind, and the spec's "nothing is dirty" precondition —
`commit` returns the very same tree and a damage report with an empty
`dirty_rects` list: the redundant world pass re-marks every live index
entry `Updated` with an unchanged AABB, and the index commit then restores
the entries, touches no backend slot, and emits no moved damage. -/
theorem box_tree_commit_idempotent (fuel : Nat)
    (t1 : BoxTree.Tree) (hc : CleanIndex t1.index)
    (hw : ∀ r ∈ BoxTree.Tree.rootIds t1,
      WorldOK fuel t1.nodes r KAffine.identity none t1.index) :
    BoxTree.Tree.commitFuel fuel t1 = some (t1, ⟨[]⟩) := by
  obtain ⟨s', hfold, hm'⟩ :=
    childFold_clean fuel KAffine.identity none t1.index t1
      (fun u idc hmu hwu =>
        updateWorld_clean fuel u idc KAffine.identity none t1.index
          hc hmu hwu)
      (BoxTree.Tree.rootIds t1) hw t1.index [] (markedUpd_refl t1.index)
  unfold BoxTree.Tree.commitFuel
  rw [show (some (t1, ([] : List KRect))
      : Option (BoxTree.Tree × List KRect))
    = some ({ t1 with index := t1.index }, []) from rfl]
  rw [hfold]
  dsimp only
  rw [commit_unmarks t1.index s' hc hm']
  rfl

/-- C8 witness: on the concrete committed two-sibling tree, a further
commit returns the same tree and empty damage. -/
theorem box_tree_commit_idempotent_witness :
    BoxTree.Tree.commitFuel 1 demoTree = some (demoTree, ⟨[]⟩) := by
  have hmul : KAffine.identity.mul KAffine.identity = KAffine.identity := by
    unfold KAffine.mul KAffine.identity
    norm_num
  have hbb : BoxTree.transform_rect_bbox KAffine.identity
      ⟨0, 0, 10, 10⟩ = ⟨0, 0, 10, 10⟩ := by
    unfold BoxTree.transform_rect_bbox KAffine.apply KAffine.identity
    norm_num [min_def, max_def]
  apply box_tree_commit_idempotent
  · intro i e h
    match i, h with
    | 0, h =>
        obtain rfl :=
          (Option.some_inj.mp (Option.some_inj.mp h)).symm
        exact ⟨rfl, rfl, Or.inl rfl⟩
    | 1, h =>
        obtain rfl :=
          (Option.some_inj.mp (Option.some_inj.mp h)).symm
        exact ⟨rfl, rfl, Or.inl rfl⟩
    | n + 2, h => exact absurd h (by simp [demoTree])
  · intro r hr
    have hroots : BoxTree.Tree.rootIds demoTree
        = [⟨0, 1⟩, ⟨1, 2⟩] := rfl
    rw [hroots] at hr
    simp only [List.mem_cons, List.not_mem_nil, or_false] at hr
    rcases hr with rfl | rfl
    · refine ⟨_, rfl, ?_, ⟨⟨0, 1⟩, rfl, ?_⟩, ?_⟩
      · show (⟨KAffine.identity, ⟨0, 0, 10, 10⟩, none⟩
            : BoxTree.WorldNode)
          = ⟨KAffine.identity.mul KAffine.identity,
              BoxTree.transform_rect_bbox
                (KAffine.identity.mul KAffine.identity) ⟨0, 0, 10, 10⟩,
              none⟩
        rw [hmul, hbb]
      · intro e he
        obtain rfl := (Option.some_inj.mp he).symm
        show (⟨0, 0, 10, 10⟩ : Aabb Rat)
          = BoxTree.rect_to_aabb (BoxTree.transform_rect_bbox
              (KAffine.identity.mul KAffine.identity) ⟨0, 0, 10, 10⟩)
        rw [hmul, hbb]
        rfl
      · intro c hc
        exact absurd hc (List.not_mem_nil c)
    · refine ⟨_, rfl, ?_, ⟨⟨1, 2⟩, rfl, ?_⟩, ?_⟩
      · show (⟨KAffine.identity, ⟨0, 0, 10, 10⟩, none⟩
            : BoxTree.WorldNode)
          = ⟨KAffine.identity.mul KAffine.identity,
              BoxTree.transform_rect_bbox
                (KAffine.identity.mul KAffine.identity) ⟨0, 0, 10, 10⟩,
              none⟩
        rw [hmul, hbb]
      · intro e he
        obtain rfl := (Option.some_inj.mp he).symm
        show (⟨0, 0, 10, 10⟩ : Aabb Rat)
          = BoxTree.rect_to_aabb (BoxTree.transform_rect_bbox
              (KAffine.identity.mul KAffine.identity) ⟨0, 0, 10, 10⟩)
        rw [hmul, hbb]
        rfl
      · intro c hc
        exact absurd hc (List.not_mem_nil c)

/-! #### Claim C1: the flat oracle vs the other backends.  The uniform grid
returns cell-granular candidate sets without a containment re-check, so the
claimed observational equality fails; what holds is refinement in one
direction (every flat result is a grid result). -/

/-- C1 (counterexample): after the same `insert ; commit` sequence, a point
query outside the box but inside its cell returns nothing on the flat
backend and the box's slot on the grid backend — the committed states are
not observationally equal. -/
theorem grid_query_over_reports :
    Index.query_point FlatVec.ops
        (runOps FlatVec.ops FlatVec.emptyState
          [IdxOp.insert ⟨0, 0, 1, 1⟩, IdxOp.commit]) 5 5 = []
    ∧ Index.query_point GridI64.ops
        (runOps GridI64.ops (GridI64.new 10 10 0 0)
          [IdxOp.insert ⟨0, 0, 1, 1⟩, IdxOp.commit]) 5 5
      = [(⟨0, 1⟩, ())]
    ∧ Index.query_rect FlatVec.ops
        (runOps FlatVec.ops FlatVec.emptyState
          [IdxOp.insert ⟨0, 0, 1, 1⟩, IdxOp.commit]) ⟨5, 5, 6, 6⟩ = []
    ∧ Index.query_rect GridI64.ops
        (runOps GridI64.ops (GridI64.new 10 10 0 0)
          [IdxOp.insert ⟨0, 0, 1, 1⟩, IdxOp.commit]) ⟨5, 5, 6, 6⟩
      = [(⟨0, 1⟩, ())] := by
  refine ⟨by decide, by decide, by decide, by decide⟩

theorem mem_rangeIncl (lo hi v : Int) (h1 : lo ≤ v) (h2 : v ≤ hi) :
    v ∈ GridI64.rangeIncl lo hi := by
  simp only [GridI64.rangeIncl, List.mem_map, List.mem_range]
  exact ⟨(v - lo).toNat, by omega, by omega⟩

theorem mem_cells_for_aabb (g : GridState) (a : Aabb Int) (key : Int × Int)
    (hx1 : (GridI64.key_for g a.min_x a.min_y).1 ≤ key.1)
    (hx2 : key.1 ≤ (GridI64.key_for g a.max_x a.max_y).1)
    (hy1 : (GridI64.key_for g a.min_x a.min_y).2 ≤ key.2)
    (hy2 : key.2 ≤ (GridI64.key_for g a.max_x a.max_y).2) :
    key ∈ GridI64.cells_for_aabb g a := by
  obtain ⟨kx, ky⟩ := key
  unfold GridI64.cells_for_aabb
  exact List.mem_flatMap.mpr ⟨ky, mem_rangeIncl _ _ _ hy1 hy2,
    List.mem_map.mpr ⟨kx, mem_rangeIncl _ _ _ hx1 hx2, rfl⟩⟩

theorem key_for_mono_x (g : GridState) (hcw : 0 < g.cell_w)
    (x1 x2 y1 y2 : Int) (h : x1 ≤ x2) :
    (GridI64.key_for g x1 y1).1 ≤ (GridI64.key_for g x2 y2).1 :=
  Int.ediv_le_ediv hcw (by omega)

theorem key_for_mono_y (g : GridState) (hch : 0 < g.cell_h)
    (x1 x2 y1 y2 : Int) (h : y1 ≤ y2) :
    (GridI64.key_for g x1 y1).2 ≤ (GridI64.key_for g x2 y2).2 :=
  Int.ediv_le_ediv hch (by omega)

/-- A contained point's cell key lies in the AABB's cell cover. -/
theorem key_for_point_mem (g : GridState) (hcw : 0 < g.cell_w)
    (hch : 0 < g.cell_h) (a : Aabb Int) (x y : Int)
    (hc : a.contains_point x y = true) :
    GridI64.key_for g x y ∈ GridI64.cells_for_aabb g a := by
  unfold Aabb.contains_point Aabb.le at hc
  simp only [Bool.and_eq_true, decide_eq_true_eq] at hc
  obtain ⟨⟨⟨h1, h2⟩, h3⟩, h4⟩ := hc
  exact mem_cells_for_aabb g a _
    (key_for_mono_x g hcw _ _ _ _ h1)
    (key_for_mono_x g hcw _ _ _ _ h3)
    (key_for_mono_y g hch _ _ _ _ h2)
    (key_for_mono_y g hch _ _ _ _ h4)

theorem mem_insertSorted (x a : Nat) :
    ∀ (l : List Nat), a ∈ GridI64.insertSorted x l ↔ (a = x ∨ a ∈ l) := by
  intro l
  induction l with
  | nil => simp [GridI64.insertSorted]
  | cons y ys ih =>
      simp only [GridI64.insertSorted]
      by_cases h1 : x < y
      · rw [if_pos h1]
        simp [List.mem_cons]
      · rw [if_neg h1]
        by_cases h2 : x = y
        · subst h2
          rw [if_pos rfl]
          simp only [List.mem_cons]
          tauto
        · rw [if_neg h2]
          simp only [List.mem_cons, ih]
          tauto

theorem mem_sortedDedup (l : List Nat) (x : Nat) (h : x ∈ l) :
    x ∈ GridI64.sortedDedup l := by
  unfold GridI64.sortedDedup
  have aux : ∀ (t : List Nat) (acc : List Nat), x ∈ acc ∨ x ∈ t →
      x ∈ t.foldl (fun acc s => GridI64.insertSorted s acc) acc := by
    intro t
    induction t with
    | nil =>
        intro acc h
        rcases h with h | h
        · exact h
        · exact absurd h (List.not_mem_nil x)
    | cons y ys ih =>
        intro acc h
        rw [List.foldl_cons]
        refine ih _ ?_
        rcases h with h | h
        · exact Or.inl ((mem_insertSorted y x acc).mpr (Or.inr h))
        · rcases List.mem_cons.mp h with rfl | h
          · exact Or.inl ((mem_insertSorted x x acc).mpr (Or.inl rfl))
          · exact Or.inr h
  exact aux l [] (Or.inr h)

theorem mem_swapRemove (l : List Nat) (pos : Nat) (x slot : Nat)
    (hpos : l.get? pos = some slot) (hx : x ∈ l) (hne : x ≠ slot) :
    x ∈ GridI64.swapRemove l pos := by
  unfold GridI64.swapRemove
  cases hl : l.getLast? with
  | none =>
      rw [List.getLast?_eq_none_iff] at hl
      subst hl
      exact absurd hx (List.not_mem_nil x)
  | some last =>
      have hplen : pos < l.length := (List.get?_eq_some.mp hpos).1
      have hlast : l.get? (l.length - 1) = some last := by
        rw [List.getLast?_eq_get?] at hl
        exact hl
      obtain ⟨j, hj⟩ := List.mem_iff_get?.mp hx
      have hjlen : j < l.length := (List.get?_eq_some.mp hj).1
      dsimp only
      rw [List.dropLast_eq_take]
      rw [List.length_set]
      by_cases hjp : j = pos
      · have hxs : x = slot := by
          rw [hjp] at hj
          rw [hj] at hpos
          exact Option.some_inj.mp hpos
        exact absurd hxs hne
      · by_cases hjlast : j = l.length - 1
        · have hxlast : x = last := by
            rw [hjlast, hlast] at hj
            exact (Option.some_inj.mp hj).symm
          have hposlt : pos < l.length - 1 := by omega
          refine List.mem_iff_get?.mpr ⟨pos, ?_⟩
          rw [List.get?_take hposlt, List.get?_set, if_pos rfl, hpos]
          simp [hxlast]
        · have hjlt : j < l.length - 1 := by omega
          refine List.mem_iff_get?.mpr ⟨j, ?_⟩
          rw [List.get?_take hjlt, List.get?_set,
            if_neg (by omega : ¬ pos = j)]
          exact hj

theorem addSlot_covers (cs : List GridCell) (key : Int × Int) (slot : Nat) :
    ∃ c ∈ GridI64.addSlot cs key slot,
      c.cx = key.1 ∧ c.cy = key.2 ∧ slot ∈ c.slots := by
  induction cs with
  | nil =>
      exact ⟨⟨key.1, key.2, [slot]⟩, List.mem_singleton.mpr rfl, rfl, rfl,
        List.mem_singleton.mpr rfl⟩
  | cons c cs ih =>
      simp only [GridI64.addSlot]
      by_cases hc : c.cx = key.1 ∧ c.cy = key.2
      · rw [if_pos hc]
        exact ⟨{ c with slots := c.slots ++ [slot] },
          List.mem_cons_self _ _, hc.1, hc.2, by simp⟩
      · rw [if_neg hc]
        obtain ⟨c', hm, h1, h2, h3⟩ := ih
        exact ⟨c', List.mem_cons_of_mem c hm, h1, h2, h3⟩

theorem addSlot_mono (key : Int × Int) (slot : Nat) (k0 : Int × Int)
    (x : Nat) :
    ∀ (cs : List GridCell),
      (∃ c ∈ cs, c.cx = k0.1 ∧ c.cy = k0.2 ∧ x ∈ c.slots) →
      ∃ c ∈ GridI64.addSlot cs key slot,
        c.cx = k0.1 ∧ c.cy = k0.2 ∧ x ∈ c.slots := by
  intro cs
  induction cs with
  | nil =>
      rintro ⟨c, hm, _⟩
      exact absurd hm (List.not_mem_nil c)
  | cons c cs ih =>
      rintro ⟨c', hm, h1, h2, h3⟩
      simp only [GridI64.addSlot]
      by_cases hc : c.cx = key.1 ∧ c.cy = key.2
      · rw [if_pos hc]
        rcases List.mem_cons.mp hm with rfl | hm'
        · exact ⟨{ c' with slots := c'.slots ++ [slot] },
            List.mem_cons_self _ _, h1, h2, by simp [h3]⟩
        · exact ⟨c', List.mem_cons_of_mem _ hm', h1, h2, h3⟩
      · rw [if_neg hc]
        rcases List.mem_cons.mp hm with rfl | hm'
        · exact ⟨c', List.mem_cons_self _ _, h1, h2, h3⟩
        · obtain ⟨c'', hm'', g1, g2, g3⟩ := ih ⟨c', hm', h1, h2, h3⟩
          exact ⟨c'', List.mem_cons_of_mem _ hm'', g1, g2, g3⟩

theorem addSlot_keys_sub (key : Int × Int) (slot : Nat) (k : Int × Int) :
    ∀ (cs : List GridCell),
      k ∈ (GridI64.addSlot cs key slot).map (fun c => (c.cx, c.cy)) →
      k ∈ cs.map (fun c => (c.cx, c.cy)) ∨ k = key := by
  intro cs
  induction cs with
  | nil =>
      intro h
      simp only [GridI64.addSlot, List.map_cons, List.map_nil,
        List.mem_singleton] at h
      exact Or.inr h
  | cons c cs ih =>
      intro h
      simp only [GridI64.addSlot] at h
      by_cases hc : c.cx = key.1 ∧ c.cy = key.2
      · rw [if_pos hc] at h
        simp only [List.map_cons, List.mem_cons] at h ⊢
        exact Or.inl h
      · rw [if_neg hc] at h
        simp only [List.map_cons, List.mem_cons] at h ⊢
        rcases h with h | h
        · exact Or.inl (Or.inl h)
        · rcases ih h with h' | h'
          · exact Or.inl (Or.inr h')
          · exact Or.inr h'

theorem addSlot_keys_nodup (key : Int × Int) (slot : Nat) :
    ∀ (cs : List GridCell),
      (cs.map fun c => (c.cx, c.cy)).Nodup →
      ((GridI64.addSlot cs key slot).map fun c => (c.cx, c.cy)).Nodup := by
  intro cs
  induction cs with
  | nil => intro _; simp [GridI64.addSlot]
  | cons c cs ih =>
      intro h
      simp only [GridI64.addSlot]
      by_cases hc : c.cx = key.1 ∧ c.cy = key.2
      · rw [if_pos hc]
        simpa using h
      · rw [if_neg hc]
        simp only [List.map_cons, List.nodup_cons] at h ⊢
        obtain ⟨hnotin, hnd⟩ := h
        refine ⟨?_, ih hnd⟩
        intro hmem
        rcases addSlot_keys_sub key slot _ cs hmem with h' | h'
        · exact hnotin h'
        · apply hc
          obtain ⟨hx, hy⟩ := Prod.mk.injEq .. ▸ h'
          exact ⟨hx, hy⟩

theorem removeFromCells_keys (cells : List GridCell) (slot : Nat) :
    (GridI64.removeFromCells cells slot).map (fun c => (c.cx, c.cy))
      = cells.map fun c => (c.cx, c.cy) := by
  unfold GridI64.removeFromCells
  rw [List.map_map]
  apply List.map_congr_left
  intro c _
  dsimp only [Function.comp]
  cases c.slots.findIdx? (fun s => s = slot) <;> rfl

theorem removeFromCells_mono (cells : List GridCell) (slot : Nat)
    (k0 : Int × Int) (x : Nat) (hx : x ≠ slot)
    (h : ∃ c ∈ cells, c.cx = k0.1 ∧ c.cy = k0.2 ∧ x ∈ c.slots) :
    ∃ c ∈ GridI64.removeFromCells cells slot,
      c.cx = k0.1 ∧ c.cy = k0.2 ∧ x ∈ c.slots := by
  obtain ⟨c, hm, h1, h2, h3⟩ := h
  unfold GridI64.removeFromCells
  cases hfi : c.slots.findIdx? (fun s => s = slot) with
  | none =>
      refine ⟨c, ?_, h1, h2, h3⟩
      have := List.mem_map_of_mem
        (fun c => match c.slots.findIdx? (fun s => s = slot) with
          | some pos => { c with slots := GridI64.swapRemove c.slots pos }
          | none => c) hm
      dsimp only at this
      rw [hfi] at this
      exact this
  | some pos =>
      have hgot := List.findIdx?_eq_some_iff_getElem.mp hfi
      obtain ⟨hlt, hp, _⟩ := hgot
      have hpos : c.slots.get? pos = some slot := by
        have : c.slots.get? pos = some (c.slots.get ⟨pos, hlt⟩) :=
          List.get?_eq_get hlt
        rw [this]
        congr 1
        exact of_decide_eq_true hp
      refine ⟨{ c with slots := GridI64.swapRemove c.slots pos }, ?_,
        h1, h2, mem_swapRemove c.slots pos x slot hpos h3 hx⟩
      have := List.mem_map_of_mem
        (fun c => match c.slots.findIdx? (fun s => s = slot) with
          | some pos => { c with slots := GridI64.swapRemove c.slots pos }
          | none => c) hm
      dsimp only at this
      rw [hfi] at this
      exact this

theorem foldAdd_mono (slot : Nat) (k0 : Int × Int) (x : Nat) :
    ∀ (keys : List (Int × Int)) (cs : List GridCell),
      (∃ c ∈ cs, c.cx = k0.1 ∧ c.cy = k0.2 ∧ x ∈ c.slots) →
      ∃ c ∈ keys.foldl (fun cs k => GridI64.addSlot cs k slot) cs,
        c.cx = k0.1 ∧ c.cy = k0.2 ∧ x ∈ c.slots := by
  intro keys
  induction keys with
  | nil => intro cs h; exact h
  | cons k keys ih =>
      intro cs h
      rw [List.foldl_cons]
      exact ih _ (addSlot_mono k slot k0 x cs h)

theorem foldAdd_covers (slot : Nat) :
    ∀ (keys : List (Int × Int)) (cs : List GridCell) (k : Int × Int),
      k ∈ keys →
      ∃ c ∈ keys.foldl (fun cs k => GridI64.addSlot cs k slot) cs,
        c.cx = k.1 ∧ c.cy = k.2 ∧ slot ∈ c.slots := by
  intro keys
  induction keys with
  | nil => intro cs k hk; exact absurd hk (List.not_mem_nil k)
  | cons k0 keys ih =>
      intro cs k hk
      rw [List.foldl_cons]
      rcases List.mem_cons.mp hk with rfl | hk'
      · exact foldAdd_mono slot k slot keys _ (addSlot_covers cs k slot)
      · exact ih _ k hk'

theorem foldAdd_keys_nodup (slot : Nat) :
    ∀ (keys : List (Int × Int)) (cs : List GridCell),
      (cs.map fun c => (c.cx, c.cy)).Nodup →
      ((keys.foldl (fun cs k => GridI64.addSlot cs k slot) cs).map
        fun c => (c.cx, c.cy)).Nodup := by
  intro keys
  induction keys with
  | nil => intro cs h; exact h
  | cons k keys ih =>
      intro cs h
      rw [List.foldl_cons]
      exact ih _ (addSlot_keys_nodup k slot cs h)

theorem ensure_get?_live (f : FlatState Int) (slot i : Nat)
    (a : Aabb Int)
    (h : (FlatVec.ensure f slot).get? i = some (some a)) :
    f.get? i = some (some a) := by
  unfold FlatVec.ensure at h
  by_cases hl : f.length ≤ slot
  · rw [if_pos hl] at h
    by_cases hi : i < f.length
    · rw [List.get?_append hi] at h
      exact h
    · rw [List.get?_append_right (by omega)] at h
      cases hrep : (List.replicate (slot + 1 - f.length)
          (none : Option (Aabb Int))).get? (i - f.length) with
      | none => rw [hrep] at h; exact Option.noConfusion h
      | some o =>
          rw [hrep] at h
          have := List.eq_of_mem_replicate (List.get?_mem hrep)
          subst this
          exact Option.noConfusion (Option.some_inj.mp h)
  · rw [if_neg hl] at h
    exact h

theorem ensure_length (f : FlatState Int) (slot : Nat) :
    slot < (FlatVec.ensure f slot).length := by
  unfold FlatVec.ensure
  by_cases hl : f.length ≤ slot
  · rw [if_pos hl]
    rw [List.length_append, List.length_replicate]
    omega
  · rw [if_neg hl]
    omega

theorem gridWf_insert (g : GridState) (f : FlatState Int) (slot : Nat)
    (aabb : Aabb Int) (h : GridWf g f) :
    GridWf (GridI64.insert g slot aabb) (FlatVec.insert f slot aabb) := by
  obtain ⟨hent, hkeys, hcov⟩ := h
  refine ⟨?_, ?_, ?_⟩
  · show (FlatVec.ensure g.entries slot).set slot (some aabb)
      = (FlatVec.ensure f slot).set slot (some aabb)
    rw [hent]
  · exact foldAdd_keys_nodup slot _ g.cells hkeys
  · intro slot' a' ha' key hkey
    by_cases hs : slot' = slot
    · subst hs
      have haa : a' = aabb := by
        unfold FlatVec.insert at ha'
        rw [List.get?_set, if_pos rfl] at ha'
        cases hg : (FlatVec.ensure f slot').get? slot' with
        | none =>
            rw [List.get?_eq_get (ensure_length f slot')] at hg
            exact Option.noConfusion hg
        | some o =>
            rw [hg] at ha'
            simp only [Option.map_some, Option.some_inj] at ha'
            exact ha'.symm
      subst haa
      exact foldAdd_covers slot' _ g.cells key hkey
    · have hf : f.get? slot' = some (some a') := by
        unfold FlatVec.insert at ha'
        rw [List.get?_set, if_neg (by omega : ¬ slot = slot')] at ha'
        exact ensure_get?_live f slot slot' a' ha'
      exact foldAdd_mono slot key slot' _ g.cells
        (hcov slot' a' hf key hkey)

theorem gridWf_update (g : GridState) (f : FlatState Int) (slot : Nat)
    (aabb : Aabb Int) (h : GridWf g f) :
    GridWf (GridI64.update g slot aabb) (FlatVec.update f slot aabb) := by
  obtain ⟨hent, hkeys, hcov⟩ := h
  have hlen : g.entries.length = f.length := by rw [hent]
  unfold GridI64.update FlatVec.update
  dsimp only
  by_cases hlt : slot < g.entries.length
  · rw [if_pos hlt]
    refine ⟨?_, ?_, ?_⟩
    · show g.entries.set slot (some aabb) = f.set slot (some aabb)
      rw [hent]
    · exact foldAdd_keys_nodup slot _ _
        (by rw [removeFromCells_keys]; exact hkeys)
    · intro slot' a' ha' key hkey
      by_cases hs : slot' = slot
      · subst hs
        have haa : a' = aabb := by
          rw [List.get?_set, if_pos rfl] at ha'
          cases hg : f.get? slot' with
          | none =>
              rw [List.get?_eq_get (by omega : slot' < f.length)] at hg
              exact Option.noConfusion hg
          | some o =>
              rw [hg] at ha'
              simp only [Option.map_some, Option.some_inj] at ha'
              exact ha'.symm
        subst haa
        exact foldAdd_covers slot' _ _ key hkey
      · have hf : f.get? slot' = some (some a') := by
          rw [List.get?_set, if_neg (by omega : ¬ slot = slot')] at ha'
          exact ha'
        exact foldAdd_mono slot key slot' _ _
          (removeFromCells_mono g.cells slot key slot' hs
            (hcov slot' a' hf key hkey))
  · rw [if_neg hlt]
    have hsetid : f.set slot (some aabb) = f :=
      List.set_eq_of_length_le (by omega)
    refine ⟨?_, ?_, ?_⟩
    · show g.entries = f.set slot (some aabb)
      rw [hsetid, hent]
    · show ((GridI64.removeFromCells g.cells slot).map
        fun c => (c.cx, c.cy)).Nodup
      rw [removeFromCells_keys]
      exact hkeys
    · intro slot' a' ha' key hkey
      rw [hsetid] at ha'
      have hne : slot' ≠ slot := by
        intro hq
        subst hq
        have := (List.get?_eq_some.mp ha').1
        omega
      exact removeFromCells_mono g.cells slot key slot' hne
        (hcov slot' a' ha' key hkey)

theorem gridWf_remove (g : GridState) (f : FlatState Int) (slot : Nat)
    (h : GridWf g f) :
    GridWf (GridI64.remove g slot) (FlatVec.remove f slot) := by
  obtain ⟨hent, hkeys, hcov⟩ := h
  refine ⟨?_, ?_, ?_⟩
  · show g.entries.set slot none = f.set slot none
    rw [hent]
  · show ((GridI64.removeFromCells g.cells slot).map
      fun c => (c.cx, c.cy)).Nodup
    rw [removeFromCells_keys]
    exact hkeys
  · intro slot' a' ha' key hkey
    have hne : slot' ≠ slot := by
      intro hq
      subst hq
      unfold FlatVec.remove at ha'
      rw [List.get?_set, if_pos rfl] at ha'
      cases hg : f.get? slot' with
      | none => rw [hg] at ha'; exact Option.noConfusion ha'
      | some o =>
          rw [hg] at ha'
          simp only [Option.map_some] at ha'
          exact Option.noConfusion (Option.some_inj.mp ha')
    have hf : f.get? slot' = some (some a') := by
      unfold FlatVec.remove at ha'
      rw [List.get?_set, if_neg (by omega : ¬ slot = slot')] at ha'
      exact ha'
    exact removeFromCells_mono g.cells slot key slot' hne
      (hcov slot' a' hf key hkey)

theorem gridWf_clear (g : GridState) (f : FlatState Int) :
    GridWf (GridI64.clear g) ((fun _ => []) f : FlatState Int) := by
  refine ⟨rfl, by simp [GridI64.clear], ?_⟩
  intro slot a ha
  exact absurd ha (by simp)

theorem commitStep_pair (i : Nat)
    (sF : IndexState Int Unit (FlatState Int))
    (sG : IndexState Int Unit GridState) (dF dG : Damage Int)
    (cw ch ox oy : Int)
    (hent : sF.entries = sG.entries) (hfree : sF.free_list = sG.free_list)
    (hwf : GridWf sG.backend sF.backend)
    (hp : GridParams sG.backend cw ch ox oy) :
    (Index.commitStep FlatVec.ops (sF, dF) i).1.entries
      = (Index.commitStep GridI64.ops (sG, dG) i).1.entries
    ∧ (Index.commitStep FlatVec.ops (sF, dF) i).1.free_list
      = (Index.commitStep GridI64.ops (sG, dG) i).1.free_list
    ∧ GridWf (Index.commitStep GridI64.ops (sG, dG) i).1.backend
        (Index.commitStep FlatVec.ops (sF, dF) i).1.backend
    ∧ GridParams (Index.commitStep GridI64.ops (sG, dG) i).1.backend
        cw ch ox oy := by
  unfold Index.commitStep
  dsimp only
  rw [← hent]
  cases hg : sF.entries.get? i with
  | none => exact ⟨hent, hfree, hwf, hp⟩
  | some o =>
      cases o with
      | none => exact ⟨hent, hfree, hwf, hp⟩
      | some e =>
          dsimp only
          cases hm : e.mark with
          | none => exact ⟨by rw [hent], hfree, hwf, hp⟩
          | some m =>
              cases m with
              | Added =>
                  refine ⟨by rw [hent], hfree,
                    gridWf_insert _ _ i e.aabb hwf, ?_⟩
                  obtain ⟨p1, p2, p3, p4⟩ := hp
                  exact ⟨p1, p2, p3, p4⟩
              | Removed =>
                  refine ⟨by rw [hent], by rw [hfree],
                    gridWf_remove _ _ i hwf, ?_⟩
                  obtain ⟨p1, p2, p3, p4⟩ := hp
                  exact ⟨p1, p2, p3, p4⟩
              | Updated =>
                  refine ⟨by rw [hent], hfree,
                    gridWf_update _ _ i e.aabb hwf, ?_⟩
                  obtain ⟨p1, p2, p3, p4⟩ := hp
                  dsimp only
                  show GridParams (GridI64.update sG.backend i e.aabb)
                    cw ch ox oy
                  unfold GridI64.update
                  dsimp only
                  split
                  · exact ⟨p1, p2, p3, p4⟩
                  · exact ⟨p1, p2, p3, p4⟩

theorem commitFold_pair (cw ch ox oy : Int) :
    ∀ (idxs : List Nat) (aF : IndexState Int Unit (FlatState Int) × Damage Int)
      (aG : IndexState Int Unit GridState × Damage Int),
      aF.1.entries = aG.1.entries → aF.1.free_list = aG.1.free_list →
      GridWf aG.1.backend aF.1.backend →
      GridParams aG.1.backend cw ch ox oy →
      (idxs.foldl (Index.commitStep FlatVec.ops) aF).1.entries
        = (idxs.foldl (Index.commitStep GridI64.ops) aG).1.entries
      ∧ (idxs.foldl (Index.commitStep FlatVec.ops) aF).1.free_list
        = (idxs.foldl (Index.commitStep GridI64.ops) aG).1.free_list
      ∧ GridWf (idxs.foldl (Index.commitStep GridI64.ops) aG).1.backend
          (idxs.foldl (Index.commitStep FlatVec.ops) aF).1.backend
      ∧ GridParams (idxs.foldl (Index.commitStep GridI64.ops) aG).1.backend
          cw ch ox oy := by
  intro idxs
  induction idxs with
  | nil => intro aF aG h1 h2 h3 h4; exact ⟨h1, h2, h3, h4⟩
  | cons i idxs ih =>
      intro aF aG h1 h2 h3 h4
      rw [List.foldl_cons, List.foldl_cons]
      obtain ⟨g1, g2, g3, g4⟩ :=
        commitStep_pair i aF.1 aG.1 aF.2 aG.2 cw ch ox oy h1 h2 h3 h4
      exact ih _ _ g1 g2 g3 g4

theorem applyOp_pair (cw ch ox oy : Int) (op : IdxOp)
    (sF : IndexState Int Unit (FlatState Int))
    (sG : IndexState Int Unit GridState)
    (hent : sF.entries = sG.entries) (hfree : sF.free_list = sG.free_list)
    (hwf : GridWf sG.backend sF.backend)
    (hp : GridParams sG.backend cw ch ox oy) :
    (applyOp FlatVec.ops sF op).entries
      = (applyOp GridI64.ops sG op).entries
    ∧ (applyOp FlatVec.ops sF op).free_list
      = (applyOp GridI64.ops sG op).free_list
    ∧ GridWf (applyOp GridI64.ops sG op).backend
        (applyOp FlatVec.ops sF op).backend
    ∧ GridParams (applyOp GridI64.ops sG op).backend cw ch ox oy := by
  cases op with
  | insert a =>
      dsimp only [applyOp]
      unfold Index.insert
      rw [← hfree]
      cases hfl : sF.free_list with
      | nil => exact ⟨by rw [hent], rfl, hwf, hp⟩
      | cons idx rest =>
          refine ⟨?_, rfl, hwf, hp⟩
          dsimp only
          rw [hent]
  | update k a =>
      dsimp only [applyOp]
      unfold Index.update
      have he : Index.entry_at sF k = Index.entry_at sG k := by
        unfold Index.entry_at
        rw [hent]
      rw [← he]
      cases hek : Index.entry_at sF k with
      | none => exact ⟨hent, hfree, hwf, hp⟩
      | some e =>
          refine ⟨?_, hfree, hwf, hp⟩
          dsimp only
          rw [hent]
  | remove k =>
      dsimp only [applyOp]
      unfold Index.remove
      have he : Index.entry_at sF k = Index.entry_at sG k := by
        unfold Index.entry_at
        rw [hent]
      rw [← he]
      cases hek : Index.entry_at sF k with
      | none => exact ⟨hent, hfree, hwf, hp⟩
      | some e =>
          dsimp only
          by_cases hmk : e.mark = some Mark.Added
          · rw [if_pos hmk, if_pos hmk]
            exact ⟨by rw [hent], by rw [hfree], hwf, hp⟩
          · rw [if_neg hmk, if_neg hmk]
            exact ⟨by rw [hent], hfree, hwf, hp⟩
  | commit =>
      dsimp only [applyOp]
      unfold Index.commit
      rw [show sG.entries.length = sF.entries.length from by rw [hent]]
      exact commitFold_pair cw ch ox oy _ (sF, Damage.empty)
        (sG, Damage.empty) hent hfree hwf hp

theorem runOps_pair (cw ch ox oy : Int) (ops : List IdxOp) :
    (runOps FlatVec.ops FlatVec.emptyState ops).entries
      = (runOps GridI64.ops (GridI64.new cw ch ox oy) ops).entries
    ∧ GridWf (runOps GridI64.ops (GridI64.new cw ch ox oy) ops).backend
        (runOps FlatVec.ops FlatVec.emptyState ops).backend
    ∧ GridParams (runOps GridI64.ops (GridI64.new cw ch ox oy) ops).backend
        cw ch ox oy := by
  have aux : ∀ (l : List IdxOp) (sF : IndexState Int Unit (FlatState Int))
      (sG : IndexState Int Unit GridState),
      sF.entries = sG.entries → sF.free_list = sG.free_list →
      GridWf sG.backend sF.backend → GridParams sG.backend cw ch ox oy →
      (l.foldl (applyOp FlatVec.ops) sF).entries
        = (l.foldl (applyOp GridI64.ops) sG).entries
      ∧ (l.foldl (applyOp FlatVec.ops) sF).free_list
        = (l.foldl (applyOp GridI64.ops) sG).free_list
      ∧ GridWf (l.foldl (applyOp GridI64.ops) sG).backend
          (l.foldl (applyOp FlatVec.ops) sF).backend
      ∧ GridParams (l.foldl (applyOp GridI64.ops) sG).backend
          cw ch ox oy := by
    intro l
    induction l with
    | nil => intro sF sG h1 h2 h3 h4; exact ⟨h1, h2, h3, h4⟩
    | cons op l ih =>
        intro sF sG h1 h2 h3 h4
        rw [List.foldl_cons, List.foldl_cons]
        obtain ⟨g1, g2, g3, g4⟩ :=
          applyOp_pair cw ch ox oy op sF sG h1 h2 h3 h4
        exact ih _ _ g1 g2 g3 g4
  obtain ⟨h1, _, h3, h4⟩ := aux ops (Index.emptyState FlatVec.emptyState)
    (Index.emptyState (GridI64.new cw ch ox oy)) rfl rfl
    ⟨rfl, by simp [GridI64.new, Index.emptyState],
      by intro slot a ha
         simp [Index.emptyState, FlatVec.emptyState] at ha⟩
    ⟨rfl, rfl, rfl, rfl⟩
  exact ⟨h1, h3, h4⟩

theorem flat_query_point_mem (f : FlatState Int) (x y : Int) (i : Nat)
    (h : i ∈ FlatVec.query_point f x y) :
    ∃ a, f.get? i = some (some a) ∧ a.contains_point x y = true := by
  unfold FlatVec.query_point at h
  obtain ⟨p, hp, hfp⟩ := List.mem_filterMap.mp h
  have hget := List.mem_enum_iff_get?.mp hp
  cases hp2 : p.2 with
  | none => rw [hp2] at hfp; exact Option.noConfusion hfp
  | some a =>
      rw [hp2] at hfp
      dsimp only at hfp
      by_cases hc : a.contains_point x y = true
      · rw [if_pos hc] at hfp
        obtain rfl := Option.some_inj.mp hfp
        rw [hp2] at hget
        exact ⟨a, hget, hc⟩
      · rw [if_neg hc] at hfp
        exact Option.noConfusion hfp

theorem grid_query_point_superset (g : GridState) (f : FlatState Int)
    (hwf : GridWf g f) (hcw : 0 < g.cell_w) (hch : 0 < g.cell_h)
    (x y : Int) (i : Nat) (hi : i ∈ FlatVec.query_point f x y) :
    i ∈ GridI64.query_point g x y := by
  obtain ⟨a, hfa, hc⟩ := flat_query_point_mem f x y i hi
  obtain ⟨hent, hkeys, hcov⟩ := hwf
  have hkeymem := key_for_point_mem g hcw hch a x y hc
  obtain ⟨c, hcm, h1, h2, h3⟩ := hcov i a hfa _ hkeymem
  unfold GridI64.query_point
  cases hfind : g.cells.find? (fun c0 =>
      c0.cx = (GridI64.key_for g x y).1
        ∧ c0.cy = (GridI64.key_for g x y).2) with
  | none =>
      exfalso
      have := List.find?_eq_none.mp hfind c hcm
      simp only [Bool.and_eq_true, decide_eq_true_eq, not_and] at this
      exact this h1 h2
  | some c0 =>
      have hc0m := List.mem_of_find?_eq_some hfind
      have hc0p := List.find?_some hfind
      simp only [Bool.and_eq_true, decide_eq_true_eq] at hc0p
      have hcc : c0 = c := List.inj_on_of_nodup_map hkeys hc0m hcm
        (by rw [hc0p.1, hc0p.2, h1, h2])
      exact mem_sortedDedup _ _ (hcc ▸ h3)

theorem flat_query_rect_mem (f : FlatState Int) (rect : Aabb Int) (i : Nat)
    (h : i ∈ FlatVec.query_rect f rect) :
    ∃ a, f.get? i = some (some a)
      ∧ (a.intersect rect).is_empty = false := by
  unfold FlatVec.query_rect at h
  obtain ⟨p, hp, hfp⟩ := List.mem_filterMap.mp h
  have hget := List.mem_enum_iff_get?.mp hp
  cases hp2 : p.2 with
  | none => rw [hp2] at hfp; exact Option.noConfusion hfp
  | some a =>
      rw [hp2] at hfp
      dsimp only at hfp
      by_cases hc : (a.intersect rect).is_empty = true
      · rw [if_pos hc] at hfp
        exact Option.noConfusion hfp
      · rw [if_neg hc] at hfp
        obtain rfl := Option.some_inj.mp hfp
        rw [hp2] at hget
        exact ⟨a, hget, Bool.not_eq_true _ ▸ hc⟩

theorem intersect_nonempty_point (a b : Aabb Int)
    (h : (a.intersect b).is_empty = false) :
    ∃ px py : Int, a.min_x ≤ px ∧ px ≤ a.max_x ∧ a.min_y ≤ py
      ∧ py ≤ a.max_y ∧ b.min_x ≤ px ∧ px ≤ b.max_x ∧ b.min_y ≤ py
      ∧ py ≤ b.max_y := by
  unfold Aabb.is_empty Aabb.intersect Aabb.lt Aabb.min_t Aabb.max_t at h
  simp only [Bool.or_eq_false_iff, decide_eq_false_iff_not, not_lt] at h
  obtain ⟨h1, h2⟩ := h
  refine ⟨max a.min_x b.min_x, max a.min_y b.min_y,
    ?_, ?_, ?_, ?_, ?_, ?_, ?_, ?_⟩ <;>
    (split_ifs at h1 h2 <;> omega)

theorem grid_query_rect_superset (g : GridState) (f : FlatState Int)
    (hwf : GridWf g f) (hcw : 0 < g.cell_w) (hch : 0 < g.cell_h)
    (rect : Aabb Int) (i : Nat) (hi : i ∈ FlatVec.query_rect f rect) :
    i ∈ GridI64.query_rect g rect := by
  obtain ⟨a, hfa, hne⟩ := flat_query_rect_mem f rect i hi
  obtain ⟨hent, hkeys, hcov⟩ := hwf
  obtain ⟨px, py, g1, g2, g3, g4, g5, g6, g7, g8⟩ :=
    intersect_nonempty_point a rect hne
  have hkey_a : GridI64.key_for g px py ∈ GridI64.cells_for_aabb g a :=
    mem_cells_for_aabb g a _
      (key_for_mono_x g hcw _ _ _ _ g1)
      (key_for_mono_x g hcw _ _ _ _ g2)
      (key_for_mono_y g hch _ _ _ _ g3)
      (key_for_mono_y g hch _ _ _ _ g4)
  have hkey_r : GridI64.key_for g px py ∈ GridI64.cells_for_aabb g rect :=
    mem_cells_for_aabb g rect _
      (key_for_mono_x g hcw _ _ _ _ g5)
      (key_for_mono_x g hcw _ _ _ _ g6)
      (key_for_mono_y g hch _ _ _ _ g7)
      (key_for_mono_y g hch _ _ _ _ g8)
  obtain ⟨c, hcm, h1, h2, h3⟩ := hcov i a hfa _ hkey_a
  unfold GridI64.query_rect
  apply mem_sortedDedup
  refine List.mem_flatMap.mpr ⟨GridI64.key_for g px py, hkey_r, ?_⟩
  cases hfind : g.cells.find? (fun c0 =>
      c0.cx = (GridI64.key_for g px py).1
        ∧ c0.cy = (GridI64.key_for g px py).2) with
  | none =>
      exfalso
      have := List.find?_eq_none.mp hfind c hcm
      simp only [Bool.and_eq_true, decide_eq_true_eq, not_and] at this
      exact this h1 h2
  | some c0 =>
      have hc0m := List.mem_of_find?_eq_some hfind
      have hc0p := List.find?_some hfind
      simp only [Bool.and_eq_true, decide_eq_true_eq] at hc0p
      have hcc : c0 = c := List.inj_on_of_nodup_map hkeys hc0m hcm
        (by rw [hc0p.1, hc0p.2, h1, h2])
      exact hcc ▸ h3

/-- C1 (amended): the flat backend refines the uniform grid, not the other
way around.  For every operation sequence applied from the empty index to
both backends (any positive cell sizes), every key-payload pair a committed
flat-backed query returns is also returned by the grid-backed query — for
point and rect queries alike.  Equality fails: the grid answers at cell
granularity with no containment re-check (see the counterexample). -/
theorem index_flat_refines_grid (cw ch ox oy : Int) (hcw : 0 < cw)
    (hch : 0 < ch) (ops : List IdxOp) :
    (∀ (x y : Int) (kp : Key × Unit),
      kp ∈ Index.query_point FlatVec.ops
        (runOps FlatVec.ops FlatVec.emptyState ops) x y →
      kp ∈ Index.query_point GridI64.ops
        (runOps GridI64.ops (GridI64.new cw ch ox oy) ops) x y)
    ∧ ∀ (rect : Aabb Int) (kp : Key × Unit),
      kp ∈ Index.query_rect FlatVec.ops
        (runOps FlatVec.ops FlatVec.emptyState ops) rect →
      kp ∈ Index.query_rect GridI64.ops
        (runOps GridI64.ops (GridI64.new cw ch ox oy) ops) rect := by
  obtain ⟨hent, hwf, hp1, hp2, hp3, hp4⟩ := runOps_pair cw ch ox oy ops
  have hgw : 0 < (runOps GridI64.ops
      (GridI64.new cw ch ox oy) ops).backend.cell_w := by rw [hp1]; exact hcw
  have hgh : 0 < (runOps GridI64.ops
      (GridI64.new cw ch ox oy) ops).backend.cell_h := by rw [hp2]; exact hch
  constructor
  · intro x y kp hkp
    unfold Index.query_point at hkp ⊢
    obtain ⟨i, hi, heq⟩ := List.mem_filterMap.mp hkp
    refine List.mem_filterMap.mpr ⟨i, ?_, ?_⟩
    · exact grid_query_point_superset _ _ hwf hgw hgh x y i hi
    · rw [← hent]
      exact heq
  · intro rect kp hkp
    unfold Index.query_rect at hkp ⊢
    obtain ⟨i, hi, heq⟩ := List.mem_filterMap.mp hkp
    refine List.mem_filterMap.mpr ⟨i, ?_, ?_⟩
    · exact grid_query_rect_superset _ _ hwf hgw hgh rect i hi
    · rw [← hent]
      exact heq

/-- C1 witness: the refinement theorem applied at cell size 10, origin 0,
and the counterexample's operation sequence. -/
theorem index_flat_refines_grid_witness :
    (∀ (x y : Int) (kp : Key × Unit),
      kp ∈ Index.query_point FlatVec.ops
        (runOps FlatVec.ops FlatVec.emptyState
          [IdxOp.insert ⟨0, 0, 1, 1⟩, IdxOp.commit]) x y →
      kp ∈ Index.query_point GridI64.ops
        (runOps GridI64.ops (GridI64.new 10 10 0 0)
          [IdxOp.insert ⟨0, 0, 1, 1⟩, IdxOp.commit]) x y)
    ∧ ∀ (rect : Aabb Int) (kp : Key × Unit),
      kp ∈ Index.query_rect FlatVec.ops
        (runOps FlatVec.ops FlatVec.emptyState
          [IdxOp.insert ⟨0, 0, 1, 1⟩, IdxOp.commit]) rect →
      kp ∈ Index.query_rect GridI64.ops
        (runOps GridI64.ops (GridI64.new 10 10 0 0)
          [IdxOp.insert ⟨0, 0, 1, 1⟩, IdxOp.commit]) rect :=
  index_flat_refines_grid 10 10 0 0 (by decide) (by decide)
    [IdxOp.insert ⟨0, 0, 1, 1⟩, IdxOp.commit]

end Understory
